import Mathlib

/-!
Verification of the xenon asset manager core
(`src/xenon/src/xenon/core/asset_manager.cpp`).

The C++ fragment is embedded shallowly:

* `UUID` is modelled as `Nat`; `UUID::None()` is `0`, `isValid` is `≠ 0`, and
  the random 128-bit generator `UUID()` is modelled as a fresh-handle counter
  `nextUUID` carried in the manager (fresh draws never collide, which is the
  stated contract of the generator).
* `std::map` / `std::unordered_map` fields are association lists together with
  first-match lookup (`mapFind`), overwrite-or-append store (`mapStore`, the
  behaviour of `operator[]`), in-place modification (`mapModify`, the behaviour
  of mutating through `.at(...)`) and guarded `emplace` (written out at the call
  sites exactly as the source guards them with `find == end`).
* `std::filesystem::directory_iterator` is an explicit tree (`FSEntry`); the
  entry path `entry.path().generic_string()` is `dirPath ++ "/" ++ name`.
* `std::sort` is an unspecified comparison sort; it is modelled by insertion
  sort over the non-strict relation induced by the strict `SortAssets`
  comparator (any sorted permutation refines `std::sort`).
* fallible C++ operations are made explicit: `registry.at` returning `Option`,
  and `loadAssetData` returning a `LoadResult` that distinguishes the
  `serializers.at` out-of-range fault and the fall-off-the-end-of-a-non-void-
  function path from an ordinary boolean result.
-/

namespace Xenon

/-- Closed enumeration of asset types, in the declared order
None, Directory, Model, Texture (spec section 3). -/
inductive AssetType where
  | None
  | Directory
  | Model
  | Texture
deriving DecidableEq, Repr

/-- Ordinal of an `AssetType`, the value its enum comparison `<` uses. -/
def AssetType.ordinal : AssetType → Nat
  | AssetType.None => 0
  | AssetType.Directory => 1
  | AssetType.Model => 2
  | AssetType.Texture => 3

/-- Persisted part of an asset: handle, logical path and type
(struct `AssetMetadata`). Handles are modelled as `Nat`. -/
structure AssetMetadata where
  handle : Nat
  path : String
  type : AssetType
deriving DecidableEq, Repr

/-- Derived-at-scan-time part of an asset (struct `RuntimeData`). -/
structure RuntimeData where
  filename : String
  extension : String
  parent : Nat
  loaded : Bool
deriving DecidableEq, Repr

/-- In-memory asset object. The C++ `Directory` subclass adds a `children`
vector; the tagged-variant embedding keeps the field on every asset, empty for
leaf assets (a freshly allocated `Directory` starts with empty `children`). -/
structure Asset where
  metadata : AssetMetadata
  runtimeData : RuntimeData
  children : List Nat
deriving DecidableEq, Repr

/-- Serializer record: an optional save hook and an optional load function
(struct `AssetSerializer`, aggregate-initialised as `{save, load}`). The C++
loader also receives the manager pointer; the two loaders ever registered
(`loadModelAsset`, `loadTextureAsset`) live outside this fragment, so a loader
is kept abstract as a function from the asset to the updated asset and a
success flag. -/
structure AssetSerializer where
  save : Option Unit
  load : Option (Asset → Asset × Bool)

/-- The asset manager state (struct `AssetManager`), plus the fresh-handle
counter modelling the `UUID()` generator. -/
structure AssetManager where
  projectFolder : String
  serializers : List (AssetType × AssetSerializer)
  registry : List (String × AssetMetadata)
  assets : List (Nat × Asset)
  sortedAssets : List (Nat × Asset)
  nextUUID : Nat

/-- First-match lookup in an association list (`map::find` / `map::at`). -/
def mapFind {α β : Type} [DecidableEq α] (k : α) : List (α × β) → Option β
  | [] => Option.none
  | e :: rest => if e.1 = k then Option.some e.2 else mapFind k rest

/-- Overwrite-or-append store (`map::operator[] = v`). -/
def mapStore {α β : Type} [DecidableEq α] (k : α) (v : β) : List (α × β) → List (α × β)
  | [] => [(k, v)]
  | e :: rest => if e.1 = k then (k, v) :: rest else e :: mapStore k v rest

/-- In-place modification of the value stored under a key (mutation through
`map::at(k)`); absent keys are untouched. -/
def mapModify {α β : Type} [DecidableEq α] (k : α) (f : β → β) : List (α × β) → List (α × β)
  | [] => []
  | e :: rest => if e.1 = k then (e.1, f e.2) :: rest else e :: mapModify k f rest

/-- Index of the last occurrence of a character (`string::find_last_of`),
`none` playing the role of `npos`. -/
def lastIndexOf (c : Char) : List Char → Option Nat
  | [] => Option.none
  | x :: xs =>
    match lastIndexOf c xs with
    | Option.some i => Option.some (i + 1)
    | Option.none => if x = c then Option.some 0 else Option.none

/-- Embedding of `createEmptyAsset` (asset_manager.cpp lines 33-83).
Decomposes the path into filename and extension with `find_last_of`/`substr`,
then consults the registry: a registered path reuses the stored handle and
type (forcing the type to `None` on a mismatch with the declared type), an
unregistered path mints a fresh handle.  Returns the manager (whose counter
advanced when a fresh handle was drawn) and the new in-memory asset; nothing
is registered or stored. -/
def createEmptyAsset (m : AssetManager) (path : String) (type : AssetType) (parent : Nat) :
    AssetManager × Asset :=
  let cs := path.data
  let filename : String :=
    match lastIndexOf '/' cs with
    | Option.none => ""
    | Option.some i =>
      if i + 1 = cs.length then String.mk (cs.take i) else String.mk (cs.drop (i + 1))
  let extension : String :=
    match lastIndexOf '.' cs with
    | Option.none => ""
    | Option.some i => String.mk (cs.drop (i + 1))
  match mapFind path m.registry with
  | Option.some md =>
    (m,
     { metadata :=
         { handle := md.handle, path := path,
           type := if md.type ≠ type then AssetType.None else md.type },
       runtimeData :=
         { filename := filename, extension := extension, parent := parent, loaded := false },
       children := [] })
  | Option.none =>
    ({ m with nextUUID := m.nextUUID + 1 },
     { metadata := { handle := m.nextUUID, path := path, type := type },
       runtimeData :=
         { filename := filename, extension := extension, parent := parent, loaded := false },
       children := [] })

/-- Modelled from the spec: `getAssetTypeFromPath` is an external collaborator
declared outside this fragment (spec sections 4.7 and 6: an extension-based
classifier).  Following the spec's scenarios, `png` classifies as Texture and
`fbx`/`model` as Model; anything else, directories included, classifies as
None. -/
def getAssetTypeFromPath (path : String) : AssetType :=
  let ext : String :=
    match lastIndexOf '.' path.data with
    | Option.none => ""
    | Option.some i => String.mk (path.data.drop (i + 1))
  if ext = "png" then AssetType.Texture
  else if ext = "fbx" then AssetType.Model
  else if ext = "model" then AssetType.Model
  else AssetType.None

/-- Embedding of `importAsset` (asset_manager.cpp lines 107-123): classify the
path, create the asset, register its metadata when the path is new, then
add/replace the live object under its handle. -/
def importAsset (m : AssetManager) (path : String) (parent : Nat) : AssetManager :=
  let type := getAssetTypeFromPath path
  let r := createEmptyAsset m path type parent
  let m1 := r.1
  let asset := r.2
  let m2 :=
    if (mapFind asset.metadata.path m1.registry).isSome then m1
    else { m1 with registry := m1.registry ++ [(asset.metadata.path, asset.metadata)] }
  { m2 with assets := mapStore asset.metadata.handle asset m2.assets }

/-- Filesystem tree entry served by the directory iterator (external
collaborator): a leaf file or a sub-directory with its own entries, in
enumeration order. -/
inductive FSEntry where
  | file (name : String)
  | dir (name : String) (entries : List FSEntry)

/-- Path of a direct directory entry, `entry.path().generic_string()`. -/
def childPath (dirPath name : String) : String := dirPath ++ "/" ++ name

/-- Directory asset as `updateDirectoryAssets` builds it (asset_manager.cpp
lines 126-127): `createEmptyAsset` with declared type Directory, then
`loaded` forced to true. -/
def dirAsset (m : AssetManager) (path : String) (parent : Nat) : Asset :=
  let a := (createEmptyAsset m path AssetType.Directory parent).2
  { a with runtimeData := { a.runtimeData with loaded := true } }

/-- Pre-loop body of `updateDirectoryAssets` (asset_manager.cpp lines
126-143): create/refresh the directory asset (forced `loaded := true`),
register it when new, add/replace it in the live store, and append its handle
to the parent's `children` when the parent handle is valid.  Returns the
updated manager and the directory's handle. -/
def dirStep (m : AssetManager) (path : String) (parent : Nat) : AssetManager × Nat :=
  let m1 := (createEmptyAsset m path AssetType.Directory parent).1
  let directory : Asset := dirAsset m path parent
  let m2 :=
    if (mapFind directory.metadata.path m1.registry).isSome then m1
    else { m1 with registry := m1.registry ++ [(directory.metadata.path, directory.metadata)] }
  let m3 := { m2 with assets := mapStore directory.metadata.handle directory m2.assets }
  let push : Asset → Asset := fun a =>
    { a with children := a.children ++ [directory.metadata.handle] }
  let m4 :=
    if parent ≠ 0 then { m3 with assets := mapModify parent push m3.assets } else m3
  (m4, directory.metadata.handle)

mutual

/-- One iteration of the `updateDirectoryAssets` loop (asset_manager.cpp lines
146-153): a sub-directory entry is scanned recursively (its `dirStep` followed
by its own loop, which is exactly `updateDirectoryAssets` on the entry path),
a file entry is imported; both receive this directory's handle as parent. -/
def scanEntry (m : AssetManager) (dirPath : String) (dirHandle : Nat) :
    FSEntry → AssetManager
  | FSEntry.file name => importAsset m (childPath dirPath name) dirHandle
  | FSEntry.dir name sub =>
    let r := dirStep m (childPath dirPath name) dirHandle
    scanEntries r.1 (childPath dirPath name) r.2 sub
termination_by structural e => e

/-- Loop of `updateDirectoryAssets` over the directory iterator's entries. -/
def scanEntries (m : AssetManager) (dirPath : String) (dirHandle : Nat) :
    List FSEntry → AssetManager
  | [] => m
  | e :: rest => scanEntries (scanEntry m dirPath dirHandle e) dirPath dirHandle rest
termination_by structural entries => entries

end

/-- Embedding of `updateDirectoryAssets` (asset_manager.cpp lines 125-156):
the pre-loop `dirStep` followed by the loop over the directory's entries;
returns the directory's handle. -/
def updateDirectoryAssets (m : AssetManager) (path : String) (entries : List FSEntry)
    (parent : Nat) : AssetManager × Nat :=
  let r := dirStep m path parent
  (scanEntries r.1 path r.2 entries, r.2)

/-- ASCII lower-case fold, the effect of `std::tolower` on each char in the
default locale. -/
def asciiLower (c : Char) : Char :=
  if 'A' ≤ c ∧ c ≤ 'Z' then Char.ofNat (c.toNat + 32) else c

/-- Lexicographic strict comparison of character lists, the behaviour of
`std::string::operator<`. -/
def charListLt : List Char → List Char → Bool
  | _, [] => false
  | [], _ :: _ => true
  | a :: as, b :: bs => if a < b then true else if b < a then false else charListLt as bs

/-- Embedding of the `SortAssets` comparator (asset_manager.cpp lines 158-167):
strict ordering by type ordinal, then by lower-cased filename. -/
def sortAssetsLT (a b : Nat × Asset) : Bool :=
  let aF := a.2.runtimeData.filename.data.map asciiLower
  let bF := b.2.runtimeData.filename.data.map asciiLower
  if a.2.metadata.type.ordinal < b.2.metadata.type.ordinal then true
  else if a.2.metadata.type.ordinal = b.2.metadata.type.ordinal then charListLt aF bF
  else false

/-- Insertion into a list sorted by `le`. -/
def insertLe {α : Type} (le : α → α → Bool) (x : α) : List α → List α
  | [] => [x]
  | y :: ys => if le x y then x :: y :: ys else y :: insertLe le x ys

/-- Insertion sort by `le`; stands in for `std::sort`, whose contract is any
permutation sorted with respect to the comparator. -/
def sortLe {α : Type} (le : α → α → Bool) : List α → List α
  | [] => []
  | x :: xs => insertLe le x (sortLe le xs)

/-- Non-strict relation induced by the strict `SortAssets` comparator; a
sequence is sorted for `std::sort(comp)` exactly when adjacent elements
satisfy `¬ comp b a`. -/
def sortAssetsLE (a b : Nat × Asset) : Bool := !(sortAssetsLT b a)

/-- Sort key of a live-store pair, as the spec words it: primary key the
AssetType ordinal, secondary key the ASCII-lower-cased filename. -/
def sortKey (a : Nat × Asset) : Nat × List Char :=
  (a.2.metadata.type.ordinal, a.2.runtimeData.filename.data.map asciiLower)

/-- Embedding of `updateAssetRegistry` (asset_manager.cpp lines 169-185):
rebuild `sortedAssets` from the live store and sort it, then erase every
registry entry whose handle has no live asset. -/
def updateAssetRegistry (m : AssetManager) : AssetManager :=
  let sorted := sortLe sortAssetsLE m.assets
  let reg := m.registry.filter (fun e => (mapFind e.2.handle m.assets).isSome)
  { m with sortedAssets := sorted, registry := reg }

/-- Outcome of `loadAssetData` (asset_manager.cpp lines 95-105).  `ok` is an
ordinary boolean return; `atOutOfRange` is the `std::out_of_range` fault of
`serializers.at(type)` for an unregistered type; `missingReturn` is the path
where control reaches the end of the non-void function without a return
statement (no defined result). -/
inductive LoadResult where
  | ok (asset : Asset) (flag : Bool)
  | atOutOfRange
  | missingReturn
deriving DecidableEq, Repr

/-- Embedding of `loadAssetData`: Directory returns false immediately; the
serializer for the asset's type is fetched with `.at`; a bound loader runs and
its flag is stored into `loaded` and returned. -/
def loadAssetData (m : AssetManager) (asset : Asset) : LoadResult :=
  if asset.metadata.type = AssetType.Directory then LoadResult.ok asset false
  else
    match mapFind asset.metadata.type m.serializers with
    | Option.none => LoadResult.atOutOfRange
    | Option.some s =>
      match s.load with
      | Option.some loadFunc =>
        let r := loadFunc asset
        LoadResult.ok { r.1 with runtimeData := { r.1.runtimeData with loaded := r.2 } } r.2
      | Option.none => LoadResult.missingReturn

/-- Modelled from the spec: the `XE_HOST_PATH_BEGIN` marker is defined outside
this fragment; spec section 4.5 only requires bracketing markers making the
synthetic namespace distinguishable from real paths. -/
def hostPathBegin : String := "<"

/-- Modelled from the spec: the `XE_HOST_PATH_END` marker, see
`hostPathBegin`. -/
def hostPathEnd : String := ">"

/-- Modelled from the spec: `copyAssetMetadata` is declared outside this
fragment; per spec sections 4.5 and 8 it copies the registered metadata of the
transient asset, parent link included, onto the caller-supplied data asset. -/
def copyAssetMetadata (src dst : Asset) : Asset :=
  { dst with
    metadata := src.metadata,
    runtimeData := { dst.runtimeData with parent := src.runtimeData.parent } }

/-- Embedding of `createEmbeddedAsset` (asset_manager.cpp lines 85-93): fetch
the parent's handle with `registry.at(parentPath)` (`none` models the
out-of-range throw), build the synthetic embedded path, run it through
`createEmptyAsset`, and copy the resulting metadata onto the data asset. -/
def createEmbeddedAsset (m : AssetManager) (type : AssetType) (dataAsset : Asset)
    (parentPath internalPath : String) : Option (AssetManager × Asset) :=
  match mapFind parentPath m.registry with
  | Option.none => Option.none
  | Option.some md =>
    let embeddedPath := hostPathBegin ++ parentPath ++ hostPathEnd ++ internalPath
    let r := createEmptyAsset m embeddedPath type md.handle
    Option.some (r.1, copyAssetMetadata r.2 dataAsset)

/-- Serializer map built by `createAssetManager` (asset_manager.cpp lines
16-17): exactly Model and Texture, each with a bound load function and no save
function. -/
def initialSerializers (loadModel loadTexture : Asset → Asset × Bool) :
    List (AssetType × AssetSerializer) :=
  [(AssetType.Model, { save := Option.none, load := Option.some loadModel }),
   (AssetType.Texture, { save := Option.none, load := Option.some loadTexture })]

/-- Embedding of `createAssetManager` (asset_manager.cpp lines 11-26): fresh
manager, serializers for Model and Texture, full scan of the project folder
with no parent, then sort-and-compact. -/
def createAssetManager (projectFolder : String)
    (loadModel loadTexture : Asset → Asset × Bool) (tree : List FSEntry) : AssetManager :=
  let m0 : AssetManager :=
    { projectFolder := projectFolder, serializers := initialSerializers loadModel loadTexture,
      registry := [], assets := [], sortedAssets := [], nextUUID := 1 }
  updateAssetRegistry (updateDirectoryAssets m0 projectFolder tree 0).1

/-- Suffix of a character list strictly after the last occurrence of `c`,
written as the spec words it ("substring after the last `c`"). -/
def specAfterLast (c : Char) (cs : List Char) : List Char :=
  (cs.reverse.takeWhile (fun x => x != c)).reverse

/-- Filename of a path as the spec words it (section 4.3): empty when the path
has no separator; everything before the trailing separator when the path ends
in one; otherwise the substring after the last separator. -/
def specFilename (cs : List Char) : List Char :=
  if '/' ∈ cs then
    if cs.getLast? = Option.some '/' then cs.dropLast else specAfterLast '/' cs
  else []

/-- Extension of a path as the spec words it (section 4.3): substring after
the last dot anywhere in the full path, empty when there is none. -/
def specExtension (cs : List Char) : List Char :=
  if '.' ∈ cs then specAfterLast '.' cs else []

mutual

/-- Paths a scan of one directory entry touches: the entry's own path, plus
its whole subtree when it is a sub-directory. -/
def entryPaths (dirPath : String) : FSEntry → List String
  | FSEntry.file name => [childPath dirPath name]
  | FSEntry.dir name sub =>
    childPath dirPath name :: entriesPaths (childPath dirPath name) sub
termination_by structural e => e

/-- Paths of every entry reachable in a directory's subtree, root of each
sub-directory included, in scan order. -/
def entriesPaths (dirPath : String) : List FSEntry → List String
  | [] => []
  | e :: rest => entryPaths dirPath e ++ entriesPaths dirPath rest
termination_by structural entries => entries

end

/-- Every path a scan of `path` with the given entries touches: the directory
itself and its whole subtree. -/
def scanPaths (path : String) (entries : List FSEntry) : List String :=
  path :: entriesPaths path entries

/-- Names of the direct sub-directory entries, in enumeration order. -/
def dirNames : List FSEntry → List String
  | [] => []
  | FSEntry.dir n _ :: rest => n :: dirNames rest
  | FSEntry.file _ :: rest => dirNames rest

/-- Names of all direct entries, files and sub-directories alike. -/
def entryNames : List FSEntry → List String
  | [] => []
  | FSEntry.dir n _ :: rest => n :: entryNames rest
  | FSEntry.file n :: rest => n :: entryNames rest

/-- Name of one directory entry. -/
def entryName : FSEntry → String
  | FSEntry.file n => n
  | FSEntry.dir n _ => n

/-- Sub-directory names contributed by one entry (one for a directory, none
for a file). -/
def entryDirNames : FSEntry → List String
  | FSEntry.file _ => []
  | FSEntry.dir n _ => [n]

/-- A filesystem name is slash-free (true of every real directory entry). -/
def validName (s : String) : Bool := !(s.data.contains '/')

mutual

/-- All names in one entry are slash-free. -/
def entryValid : FSEntry → Bool
  | FSEntry.file n => validName n
  | FSEntry.dir n sub => validName n && entriesValid sub
termination_by structural e => e

/-- All names in a tree are slash-free. -/
def entriesValid : List FSEntry → Bool
  | [] => true
  | e :: rest => entryValid e && entriesValid rest
termination_by structural entries => entries

end

/-- Manager with no serializers, empty registry and store, counter at 1; used
to instantiate concrete scenarios. -/
def emptyManager : AssetManager :=
  { projectFolder := "root", serializers := [], registry := [], assets := [],
    sortedAssets := [], nextUUID := 1 }

/-- Concrete runtime data used to instantiate concrete scenarios. -/
def sampleRT : RuntimeData :=
  { filename := "", extension := "", parent := 0, loaded := false }

/-- Concrete asset used to instantiate concrete scenarios. -/
def sampleAsset (h : Nat) (p : String) (t : AssetType) : Asset :=
  { metadata := { handle := h, path := p, type := t }, runtimeData := sampleRT,
    children := [] }

/-- Manager holding one registered path, used to instantiate concrete
scenarios. -/
def regManager (p : String) (h : Nat) (t : AssetType) : AssetManager :=
  { emptyManager with
    registry := [(p, { handle := h, path := p, type := t })], nextUUID := h + 1 }

/-- Manager holding one registered path together with its live asset, used to
instantiate concrete scenarios. -/
def pairManager : AssetManager :=
  { emptyManager with
    registry := [("p", { handle := 1, path := "p", type := AssetType.Model })],
    assets := [(1, sampleAsset 1 "p" AssetType.Model)], nextUUID := 2 }

/-- Registry well-formedness: every registered handle is valid (nonzero) and
below the fresh-handle counter, and distinct paths hold distinct handles.
A fresh manager satisfies it, and every scan operation preserves it. -/
def WFreg (m : AssetManager) : Prop :=
  0 < m.nextUUID ∧
  (∀ e ∈ m.registry, e.2.handle < m.nextUUID ∧ 0 < e.2.handle) ∧
  (∀ e1 ∈ m.registry, ∀ e2 ∈ m.registry, e1.2.handle = e2.2.handle → e1.1 = e2.1)

instance (m : AssetManager) : Decidable (WFreg m) := by
  unfold WFreg
  infer_instance

/-! ## Facts about `lastIndexOf` and the spec-side path decomposition -/

theorem lastIndexOf_some_mem {c : Char} {cs : List Char} {i : Nat}
    (h : lastIndexOf c cs = Option.some i) : c ∈ cs := by
  induction cs generalizing i with
  | nil => exact Option.noConfusion h
  | cons x xs ih =>
    simp only [lastIndexOf] at h
    cases hx : lastIndexOf c xs with
    | some j => exact List.mem_cons_of_mem x (ih hx)
    | none =>
      rw [hx] at h
      by_cases hxc : x = c
      · exact hxc ▸ List.mem_cons_self x xs
      · simp [hxc] at h

theorem lastIndexOf_eq_none_iff (c : Char) (cs : List Char) :
    lastIndexOf c cs = Option.none ↔ c ∉ cs := by
  induction cs with
  | nil => simp [lastIndexOf]
  | cons x xs ih =>
    simp only [lastIndexOf]
    cases h : lastIndexOf c xs with
    | some j =>
      constructor
      · intro habs; exact Option.noConfusion habs
      · intro hnm; exact absurd (List.mem_cons_of_mem x (lastIndexOf_some_mem h)) hnm
    | none =>
      rw [h] at ih
      by_cases hx : x = c
      · subst hx
        constructor
        · intro habs; simp at habs
        · intro hnm; exact absurd (List.mem_cons_self x xs) hnm
      · simp only [if_neg hx]
        constructor
        · intro _ hmem
          rcases List.mem_cons.mp hmem with h1 | h1
          · exact hx h1.symm
          · exact (ih.mp rfl) h1
        · intro _; trivial

theorem lastIndexOf_lt_length {c : Char} {cs : List Char} {i : Nat}
    (h : lastIndexOf c cs = Option.some i) : i < cs.length := by
  induction cs generalizing i with
  | nil => exact Option.noConfusion h
  | cons x xs ih =>
    simp only [lastIndexOf] at h
    cases hx : lastIndexOf c xs with
    | some j =>
      rw [hx] at h
      cases h
      simpa using Nat.succ_lt_succ (ih hx)
    | none =>
      rw [hx] at h
      by_cases hxc : x = c
      · simp only [hxc, if_pos rfl] at h
        cases h
        simp [List.length_cons]
      · simp [hxc] at h

theorem takeWhile_ne_append_of_mem {c : Char} {l : List Char} (l2 : List Char)
    (h : c ∈ l) :
    (l ++ l2).takeWhile (fun x => x != c) = l.takeWhile (fun x => x != c) := by
  induction l with
  | nil => exact absurd h (List.not_mem_nil c)
  | cons a t ih =>
    by_cases hac : a = c
    · subst hac; simp [List.takeWhile_cons]
    · have hct : c ∈ t := by
        rcases List.mem_cons.mp h with h1 | h1
        · exact absurd h1.symm hac
        · exact h1
      simp only [List.cons_append, List.takeWhile_cons]
      have : (a != c) = true := by simpa using hac
      rw [this]
      simp [ih hct]

theorem takeWhile_ne_of_not_mem {c : Char} {l : List Char} (h : c ∉ l) :
    l.takeWhile (fun x => x != c) = l := by
  induction l with
  | nil => rfl
  | cons a t ih =>
    have hac : a ≠ c := fun he => h (he ▸ List.mem_cons_self a t)
    have hct : c ∉ t := fun hc => h (List.mem_cons_of_mem a hc)
    simp only [List.takeWhile_cons]
    have : (a != c) = true := by simpa using hac
    rw [this]
    simp [ih hct]

theorem takeWhile_ne_append_stop {c : Char} {l : List Char} (l2 : List Char)
    (h : c ∉ l) :
    (l ++ c :: l2).takeWhile (fun x => x != c) = l := by
  induction l with
  | nil => simp [List.takeWhile_cons]
  | cons a t ih =>
    have hac : a ≠ c := fun he => h (he ▸ List.mem_cons_self a t)
    have hct : c ∉ t := fun hc => h (List.mem_cons_of_mem a hc)
    simp only [List.cons_append, List.takeWhile_cons]
    have : (a != c) = true := by simpa using hac
    rw [this]
    simp [ih hct]

theorem drop_lastIndexOf_eq_specAfterLast {c : Char} {cs : List Char} {i : Nat}
    (h : lastIndexOf c cs = Option.some i) :
    cs.drop (i + 1) = specAfterLast c cs := by
  induction cs generalizing i with
  | nil => exact Option.noConfusion h
  | cons x xs ih =>
    simp only [lastIndexOf] at h
    cases hx : lastIndexOf c xs with
    | some j =>
      rw [hx] at h
      cases h
      have hmem : c ∈ xs := lastIndexOf_some_mem hx
      have hmem' : c ∈ xs.reverse := List.mem_reverse.mpr hmem
      unfold specAfterLast
      rw [List.reverse_cons, takeWhile_ne_append_of_mem [x] hmem']
      exact ih hx
    | none =>
      rw [hx] at h
      by_cases hxc : x = c
      · simp only [hxc, if_pos rfl] at h
        cases h
        have hnm : c ∉ xs := (lastIndexOf_eq_none_iff c xs).mp hx
        have hnm' : c ∉ xs.reverse := fun hc => hnm (List.mem_reverse.mp hc)
        unfold specAfterLast
        subst hxc
        rw [List.reverse_cons, takeWhile_ne_append_stop [] hnm']
        simp
      · simp [hxc] at h

theorem lastIndexOf_concat (c a : Char) (l : List Char) :
    lastIndexOf c (l ++ [a]) =
      if a = c then Option.some l.length else lastIndexOf c l := by
  induction l with
  | nil => simp [lastIndexOf]
  | cons x t ih =>
    simp only [List.cons_append, lastIndexOf, List.append_eq]
    rw [ih]
    by_cases hac : a = c
    · simp [hac, List.length_cons]
    · simp [hac]

/-! ## Facts about the association-list map operations -/

theorem mapFind_mapStore_self {α β : Type} [DecidableEq α] (k : α) (v : β)
    (l : List (α × β)) : mapFind k (mapStore k v l) = Option.some v := by
  induction l with
  | nil => simp [mapStore, mapFind]
  | cons e rest ih =>
    by_cases he : e.1 = k
    · simp [mapStore, he, mapFind]
    · simp [mapStore, he, mapFind, ih]

theorem mapFind_mapStore_ne {α β : Type} [DecidableEq α] {k' k : α} (v : β)
    (l : List (α × β)) (h : k' ≠ k) :
    mapFind k' (mapStore k v l) = mapFind k' l := by
  have h1 : ¬ (k = k') := fun he => h he.symm
  induction l with
  | nil => simp [mapStore, mapFind, h1]
  | cons e rest ih =>
    obtain ⟨a, b⟩ := e
    by_cases he : a = k
    · subst he
      simp [mapStore, mapFind, h1]
    · by_cases he2 : a = k'
      · simp [mapStore, mapFind, he, he2, h]
      · simp [mapStore, mapFind, he, he2, ih]

theorem mapFind_mapModify_self {α β : Type} [DecidableEq α] (k : α) (f : β → β)
    (l : List (α × β)) : mapFind k (mapModify k f l) = (mapFind k l).map f := by
  induction l with
  | nil => simp [mapModify, mapFind]
  | cons e rest ih =>
    obtain ⟨a, b⟩ := e
    by_cases he : a = k
    · subst he
      simp [mapModify, mapFind]
    · simp [mapModify, mapFind, he, ih]

theorem mapFind_mapModify_ne {α β : Type} [DecidableEq α] {k' k : α} (f : β → β)
    (l : List (α × β)) (h : k' ≠ k) :
    mapFind k' (mapModify k f l) = mapFind k' l := by
  have h1 : ¬ (k = k') := fun he => h he.symm
  induction l with
  | nil => simp [mapModify, mapFind]
  | cons e rest ih =>
    obtain ⟨a, b⟩ := e
    by_cases he : a = k
    · subst he
      simp [mapModify, mapFind, h1]
    · by_cases he2 : a = k'
      · simp [mapModify, mapFind, he, he2, h]
      · simp [mapModify, mapFind, he, he2, ih]

theorem mapFind_append {α β : Type} [DecidableEq α] (k : α) (l1 l2 : List (α × β)) :
    mapFind k (l1 ++ l2) =
      match mapFind k l1 with
      | Option.some v => Option.some v
      | Option.none => mapFind k l2 := by
  induction l1 with
  | nil => simp [mapFind]
  | cons e rest ih =>
    by_cases he : e.1 = k
    · simp [mapFind, he]
    · simp [mapFind, he, ih]

theorem mapFind_eq_some_mem {α β : Type} [DecidableEq α] {k : α} {v : β}
    {l : List (α × β)} (h : mapFind k l = Option.some v) : (k, v) ∈ l := by
  induction l with
  | nil => exact Option.noConfusion h
  | cons e rest ih =>
    obtain ⟨a, b⟩ := e
    by_cases he : a = k
    · subst he
      rw [mapFind, if_pos rfl] at h
      cases h
      exact List.mem_cons_self _ rest
    · rw [mapFind, if_neg he] at h
      exact List.mem_cons_of_mem _ (ih h)

theorem mapFind_eq_none_iff {α β : Type} [DecidableEq α] (k : α) (l : List (α × β)) :
    mapFind k l = Option.none ↔ ∀ p ∈ l, p.1 ≠ k := by
  induction l with
  | nil => simp [mapFind]
  | cons e rest ih =>
    obtain ⟨a, b⟩ := e
    by_cases he : a = k
    · subst he
      simp [mapFind]
    · simp [mapFind, he, ih]

theorem mapFind_isSome_iff {α β : Type} [DecidableEq α] (k : α) (l : List (α × β)) :
    (mapFind k l).isSome ↔ ∃ p ∈ l, p.1 = k := by
  constructor
  · intro hs
    cases hmf : mapFind k l with
    | none => rw [hmf] at hs; simp at hs
    | some v => exact ⟨(k, v), mapFind_eq_some_mem hmf, rfl⟩
  · intro ⟨p, hp, hk⟩
    cases hmf : mapFind k l with
    | some v => rfl
    | none => exact absurd hk ((mapFind_eq_none_iff k l).mp hmf p hp)

/-! ## Path decomposition (claim C9) -/

theorem createEmptyAsset_filename (m : AssetManager) (p : String) (t : AssetType)
    (par : Nat) :
    (createEmptyAsset m p t par).2.runtimeData.filename =
      (match lastIndexOf '/' p.data with
       | Option.none => ""
       | Option.some i =>
         if i + 1 = p.data.length then String.mk (p.data.take i)
         else String.mk (p.data.drop (i + 1))) := by
  unfold createEmptyAsset
  cases h : mapFind p m.registry <;> simp [h]

theorem createEmptyAsset_extension (m : AssetManager) (p : String) (t : AssetType)
    (par : Nat) :
    (createEmptyAsset m p t par).2.runtimeData.extension =
      (match lastIndexOf '.' p.data with
       | Option.none => ""
       | Option.some i => String.mk (p.data.drop (i + 1))) := by
  unfold createEmptyAsset
  cases h : mapFind p m.registry <;> simp [h]

theorem filename_matches_spec (cs : List Char) :
    (match lastIndexOf '/' cs with
     | Option.none => ""
     | Option.some i =>
       if i + 1 = cs.length then String.mk (cs.take i)
       else String.mk (cs.drop (i + 1))) = String.mk (specFilename cs) := by
  cases h : lastIndexOf '/' cs with
  | none =>
    have hnm : '/' ∉ cs := (lastIndexOf_eq_none_iff _ _).mp h
    unfold specFilename
    rw [if_neg hnm]
  | some i =>
    have hmem : '/' ∈ cs := lastIndexOf_some_mem h
    rcases List.eq_nil_or_concat cs with hnil | ⟨l, a, hcat⟩
    · subst hnil; exact absurd hmem (List.not_mem_nil _)
    · rw [List.concat_eq_append] at hcat
      subst hcat
      have hcat2 := lastIndexOf_concat '/' a l
      by_cases ha : a = '/'
      · rw [hcat2, if_pos ha] at h
        cases h
        have hlen : l.length + 1 = (l ++ [a]).length := by
          simp [List.length_append]
        have hspec : specFilename (l ++ [a]) = l := by
          unfold specFilename
          rw [if_pos hmem, List.getLast?_concat, if_pos (by rw [ha]),
            List.dropLast_concat]
        show (if l.length + 1 = (l ++ [a]).length then String.mk ((l ++ [a]).take l.length)
          else String.mk ((l ++ [a]).drop (l.length + 1))) = String.mk (specFilename (l ++ [a]))
        rw [hspec, if_pos hlen, List.take_left]
      · rw [hcat2, if_neg ha] at h
        have hlt : i < l.length := lastIndexOf_lt_length h
        have hne : ¬ (i + 1 = (l ++ [a]).length) := by
          simp only [List.length_append, List.length_cons, List.length_nil]
          omega
        simp only [if_neg hne]
        have horig : lastIndexOf '/' (l ++ [a]) = Option.some i := by
          rw [lastIndexOf_concat, if_neg ha]; exact h
        have hspec : specFilename (l ++ [a]) = specAfterLast '/' (l ++ [a]) := by
          unfold specFilename
          rw [if_pos hmem, List.getLast?_concat]
          simp [ha]
        rw [hspec, ← drop_lastIndexOf_eq_specAfterLast horig]

theorem extension_matches_spec (cs : List Char) :
    (match lastIndexOf '.' cs with
     | Option.none => ""
     | Option.some i => String.mk (cs.drop (i + 1))) = String.mk (specExtension cs) := by
  cases h : lastIndexOf '.' cs with
  | none =>
    have hnm : '.' ∉ cs := (lastIndexOf_eq_none_iff _ _).mp h
    unfold specExtension
    rw [if_neg hnm]
  | some i =>
    have hmem : '.' ∈ cs := lastIndexOf_some_mem h
    rw [specExtension, if_pos hmem, ← drop_lastIndexOf_eq_specAfterLast h]

/-- C9.  Path decomposition: for every path string, `createEmptyAsset` computes
the filename as empty when the path contains no separator, as everything
before the trailing separator when the path ends in one, and otherwise as the
substring after the last separator; and it computes the extension as the
substring after the last dot anywhere in the full path, or empty when the
path contains no dot (`specFilename` and `specExtension` word those rules as
the spec states them). -/
theorem c9_path_decomposition (m : AssetManager) (p : String) (t : AssetType)
    (par : Nat) :
    (createEmptyAsset m p t par).2.runtimeData.filename = String.mk (specFilename p.data) ∧
    (createEmptyAsset m p t par).2.runtimeData.extension = String.mk (specExtension p.data) := by
  constructor
  · rw [createEmptyAsset_filename, filename_matches_spec]
  · rw [createEmptyAsset_extension, extension_matches_spec]

/-! ## Basic facts about `createEmptyAsset` -/

theorem createEmptyAsset_found (m : AssetManager) (p : String) (t : AssetType)
    (par : Nat) (md : AssetMetadata) (h : mapFind p m.registry = Option.some md) :
    (createEmptyAsset m p t par).1 = m ∧
    (createEmptyAsset m p t par).2.metadata.handle = md.handle ∧
    (createEmptyAsset m p t par).2.metadata.path = p := by
  unfold createEmptyAsset
  simp [h]

theorem createEmptyAsset_not_found (m : AssetManager) (p : String) (t : AssetType)
    (par : Nat) (h : mapFind p m.registry = Option.none) :
    (createEmptyAsset m p t par).1 = { m with nextUUID := m.nextUUID + 1 } ∧
    (createEmptyAsset m p t par).2.metadata.handle = m.nextUUID ∧
    (createEmptyAsset m p t par).2.metadata.path = p ∧
    (createEmptyAsset m p t par).2.metadata.type = t := by
  unfold createEmptyAsset
  simp [h]

theorem createEmptyAsset_parent (m : AssetManager) (p : String) (t : AssetType)
    (par : Nat) :
    (createEmptyAsset m p t par).2.runtimeData.parent = par ∧
    (createEmptyAsset m p t par).2.runtimeData.loaded = false ∧
    (createEmptyAsset m p t par).2.children = [] := by
  unfold createEmptyAsset
  cases h : mapFind p m.registry <;> simp [h]

theorem createEmptyAsset_handle (m : AssetManager) (p : String) (t : AssetType)
    (par : Nat) :
    (createEmptyAsset m p t par).2.metadata.handle =
      (match mapFind p m.registry with
       | Option.some md => md.handle
       | Option.none => m.nextUUID) := by
  unfold createEmptyAsset
  cases h : mapFind p m.registry <;> simp [h]

theorem createEmptyAsset_registry (m : AssetManager) (p : String) (t : AssetType)
    (par : Nat) :
    (createEmptyAsset m p t par).1.registry = m.registry ∧
    (createEmptyAsset m p t par).1.assets = m.assets ∧
    (createEmptyAsset m p t par).1.serializers = m.serializers ∧
    m.nextUUID ≤ (createEmptyAsset m p t par).1.nextUUID := by
  unfold createEmptyAsset
  cases h : mapFind p m.registry <;> simp [h]

/-! ## Claim C3: type-mismatch policy -/

/-- C3.  Type-mismatch policy: for every path already present in the registry
with stored type `md.type`, calling `createEmptyAsset` on that path with a
different declared type returns an asset whose type is `None` and whose handle
is the handle stored in the registry for that path. -/
theorem c3_type_mismatch (m : AssetManager) (p : String) (t : AssetType)
    (par : Nat) (md : AssetMetadata)
    (hreg : mapFind p m.registry = Option.some md) (hne : md.type ≠ t) :
    (createEmptyAsset m p t par).2.metadata.type = AssetType.None ∧
    (createEmptyAsset m p t par).2.metadata.handle = md.handle := by
  unfold createEmptyAsset
  simp [hreg, hne]

/-- Witness for C3 at a concrete input: path `p/a.model` registered as Model
with handle 5, empty asset requested as Texture. -/
theorem c3_type_mismatch_witness :
    (mapFind "p/a.model" (regManager "p/a.model" 5 AssetType.Model).registry =
        Option.some { handle := 5, path := "p/a.model", type := AssetType.Model } ∧
      ({ handle := 5, path := "p/a.model", type := AssetType.Model } : AssetMetadata).type ≠
        AssetType.Texture) ∧
    ((createEmptyAsset (regManager "p/a.model" 5 AssetType.Model) "p/a.model"
        AssetType.Texture 0).2.metadata.type = AssetType.None ∧
      (createEmptyAsset (regManager "p/a.model" 5 AssetType.Model) "p/a.model"
        AssetType.Texture 0).2.metadata.handle = 5) :=
  ⟨⟨by decide, by decide⟩,
   c3_type_mismatch (regManager "p/a.model" 5 AssetType.Model) "p/a.model"
     AssetType.Texture 0 { handle := 5, path := "p/a.model", type := AssetType.Model }
     (by decide) (by decide)⟩

/-! ## Claim C5: load dispatch -/

/-- C5.  Load dispatch at the failing input: for a non-Directory asset whose
type is bound in the serializer map with no load function, `loadAssetData`
reaches the end of the non-void function without returning — the result is
`missingReturn` (undefined in C++), not the deterministic false result the
spec requires. -/
theorem c5_load_dispatch_bug :
    loadAssetData
      { emptyManager with
        serializers := [(AssetType.Model, { save := Option.none, load := Option.none })] }
      (sampleAsset 9 "p/a.fbx" AssetType.Model) = LoadResult.missingReturn := by
  decide

/-! ## Claim C6: re-import overwrite -/

/-- C6.  Re-import overwrite: for every path already present in the registry
and with a live asset under its handle, `importAsset` replaces the live object
stored under that handle with the newly created asset, leaves every other
store key unchanged, and leaves the registry (hence the path's handle and
entry) unchanged. -/
theorem c6_reimport_overwrite (m : AssetManager) (p : String) (par : Nat)
    (md : AssetMetadata) (old : Asset)
    (hreg : mapFind p m.registry = Option.some md)
    (hlive : mapFind md.handle m.assets = Option.some old) :
    (importAsset m p par).registry = m.registry ∧
    mapFind md.handle (importAsset m p par).assets =
      Option.some (createEmptyAsset m p (getAssetTypeFromPath p) par).2 ∧
    (createEmptyAsset m p (getAssetTypeFromPath p) par).2.metadata.handle = md.handle ∧
    (∀ k, k ≠ md.handle → mapFind k (importAsset m p par).assets = mapFind k m.assets) := by
  obtain ⟨h1, h2, h3⟩ := createEmptyAsset_found m p (getAssetTypeFromPath p) par md hreg
  have himp : importAsset m p par =
      { m with assets :=
          mapStore md.handle (createEmptyAsset m p (getAssetTypeFromPath p) par).2 m.assets } := by
    unfold importAsset
    simp only [h1, h2, h3, hreg, Option.isSome_some, if_true]
  refine ⟨by rw [himp], ?_, h2, ?_⟩
  · rw [himp]
    exact mapFind_mapStore_self md.handle _ m.assets
  · intro k hk
    rw [himp]
    exact mapFind_mapStore_ne _ m.assets hk

/-- Witness for C6 at a concrete input: path `p` registered with handle 1 and
a live asset under handle 1. -/
theorem c6_reimport_overwrite_witness :
    (mapFind "p" pairManager.registry =
        Option.some { handle := 1, path := "p", type := AssetType.Model } ∧
      mapFind 1 pairManager.assets = Option.some (sampleAsset 1 "p" AssetType.Model)) ∧
    ((importAsset pairManager "p" 0).registry = pairManager.registry ∧
      mapFind 1 (importAsset pairManager "p" 0).assets =
        Option.some (createEmptyAsset pairManager "p" (getAssetTypeFromPath "p") 0).2 ∧
      (createEmptyAsset pairManager "p" (getAssetTypeFromPath "p") 0).2.metadata.handle = 1 ∧
      (∀ k, k ≠ 1 → mapFind k (importAsset pairManager "p" 0).assets =
        mapFind k pairManager.assets)) :=
  ⟨⟨by decide, by decide⟩,
   c6_reimport_overwrite pairManager "p" 0
     { handle := 1, path := "p", type := AssetType.Model }
     (sampleAsset 1 "p" AssetType.Model) (by decide) (by decide)⟩

/-! ## Claim C10: loader lookup totality -/

/-- C10.  With the serializer map built at construction (only Model and
Texture are registered), `loadAssetData` on an asset of type `None` — the
fallback produced by the type-mismatch policy — faults in the
`serializers.at` lookup (out-of-range) instead of returning a false result,
while for the registered types Model and Texture the lookup succeeds and the
bound loader's flag is stored and returned. -/
theorem c10_loader_totality (lm lt : Asset → Asset × Bool) (m : AssetManager)
    (a : Asset) (hs : m.serializers = initialSerializers lm lt) :
    (a.metadata.type = AssetType.None → loadAssetData m a = LoadResult.atOutOfRange) ∧
    (a.metadata.type = AssetType.Model →
      loadAssetData m a =
        LoadResult.ok
          { (lm a).1 with runtimeData := { (lm a).1.runtimeData with loaded := (lm a).2 } }
          (lm a).2) ∧
    (a.metadata.type = AssetType.Texture →
      loadAssetData m a =
        LoadResult.ok
          { (lt a).1 with runtimeData := { (lt a).1.runtimeData with loaded := (lt a).2 } }
          (lt a).2) := by
  refine ⟨fun h => ?_, fun h => ?_, fun h => ?_⟩ <;>
    (unfold loadAssetData; rw [hs]; simp [h, initialSerializers, mapFind])

/-- Witness for C10 at a concrete input: the constructed serializer map and a
`None`-typed asset. -/
theorem c10_loader_totality_witness :
    (({ emptyManager with
        serializers := initialSerializers (fun a => (a, true)) (fun a => (a, false)) } :
          AssetManager).serializers =
      initialSerializers (fun a => (a, true)) (fun a => (a, false))) ∧
    loadAssetData
      { emptyManager with
        serializers := initialSerializers (fun a => (a, true)) (fun a => (a, false)) }
      (sampleAsset 1 "x" AssetType.None) = LoadResult.atOutOfRange :=
  ⟨rfl,
   (c10_loader_totality (fun a => (a, true)) (fun a => (a, false)) _
     (sampleAsset 1 "x" AssetType.None) rfl).1 rfl⟩

/-! ## Claim C2: registry compaction -/

/-- C2 counterexample: with a live asset under handle 1 and an empty registry,
`updateAssetRegistry` leaves the registry empty, so "the registry contains an
entry with handle h iff the live store contains an asset under key h" fails at
h = 1 — compaction only removes entries, it never adds one for a live asset
that was never registered. -/
theorem c2_compaction_counterexample :
    ¬ (∀ h : Nat,
        (∃ e ∈ (updateAssetRegistry
            { emptyManager with assets := [(1, sampleAsset 1 "p" AssetType.Model)] }).registry,
          e.2.handle = h) ↔
        (mapFind h (updateAssetRegistry
            { emptyManager with assets := [(1, sampleAsset 1 "p" AssetType.Model)] }).assets).isSome) :=
  fun hall => absurd ((hall 1).mpr (by decide)) (by decide)

/-- C2 (amended).  After `updateAssetRegistry` the registry is exactly its
previous value restricted to entries whose handle has a live asset: every
surviving entry's handle has a live asset, no entry with a live asset is
removed, nothing is added, and the live store is untouched.  The claim's
two-sided "handle present iff live asset exists" additionally holds under the
precondition — established by the import pipeline — that every live asset's
handle occurs in the registry. -/
theorem c2_compaction (m : AssetManager) :
    (∀ e ∈ (updateAssetRegistry m).registry, (mapFind e.2.handle m.assets).isSome) ∧
    (∀ e ∈ m.registry, (mapFind e.2.handle m.assets).isSome →
      e ∈ (updateAssetRegistry m).registry) ∧
    (∀ e ∈ (updateAssetRegistry m).registry, e ∈ m.registry) ∧
    (updateAssetRegistry m).assets = m.assets ∧
    ((∀ p ∈ m.assets, ∃ e ∈ m.registry, e.2.handle = p.1) →
      ∀ h : Nat,
        ((∃ e ∈ (updateAssetRegistry m).registry, e.2.handle = h) ↔
          (mapFind h (updateAssetRegistry m).assets).isSome)) := by
  have hreg : (updateAssetRegistry m).registry =
      m.registry.filter (fun e => (mapFind e.2.handle m.assets).isSome) := rfl
  have hass : (updateAssetRegistry m).assets = m.assets := rfl
  refine ⟨?_, ?_, ?_, hass, ?_⟩
  · intro e he
    rw [hreg] at he
    exact (List.mem_filter.mp he).2
  · intro e he hs
    rw [hreg]
    exact List.mem_filter.mpr ⟨he, hs⟩
  · intro e he
    rw [hreg] at he
    exact (List.mem_filter.mp he).1
  · intro hcov h
    rw [hass]
    constructor
    · intro ⟨e, he, heq⟩
      rw [hreg] at he
      have := (List.mem_filter.mp he).2
      rw [heq] at this
      exact this
    · intro hs
      obtain ⟨pr, hpr, hk⟩ := (mapFind_isSome_iff h m.assets).mp hs
      obtain ⟨e, he, heh⟩ := hcov pr hpr
      refine ⟨e, ?_, by rw [heh, hk]⟩
      rw [hreg]
      refine List.mem_filter.mpr ⟨he, ?_⟩
      rw [heh, hk]
      exact hs

/-- Witness for C2 at a concrete input: a registered path with a live asset
survives compaction. -/
theorem c2_compaction_witness :
    (("p", { handle := 1, path := "p", type := AssetType.Model }) :
        String × AssetMetadata) ∈ (updateAssetRegistry pairManager).registry :=
  (c2_compaction pairManager).2.1 _ (by decide) (by decide)

/-! ## Claim C7: embedded asset metadata -/

/-- C7 counterexample: `createEmbeddedAsset` on a registered parent path
succeeds but adds no registry entry for the synthetic embedded path — the
registry is left unchanged, refuting "leaves the registry containing exactly
one new entry keyed by that synthetic path". -/
theorem c7_embedded_counterexample :
    (createEmbeddedAsset (regManager "p" 7 AssetType.Model) AssetType.Model
        (sampleAsset 0 "" AssetType.None) "p" "sub").map
      (fun r => (mapFind (hostPathBegin ++ "p" ++ hostPathEnd ++ "sub") r.1.registry).isSome) =
    Option.some false := by
  decide

/-- C7 (amended).  For a parent path registered with handle H and a synthetic
embedded path not yet registered, `createEmbeddedAsset` sets the data asset's
metadata path to the synthetic path, assigns it the fresh handle (distinct
from H whenever the registry's handles sit below the fresh-handle counter),
sets its parent to H — but it leaves the registry unchanged: no entry is
created for the synthetic path. -/
theorem c7_embedded_metadata (m : AssetManager) (t : AssetType) (da : Asset)
    (pp ip : String) (md : AssetMetadata)
    (hreg : mapFind pp m.registry = Option.some md)
    (hfresh : ∀ e ∈ m.registry, e.2.handle < m.nextUUID)
    (hnew : mapFind (hostPathBegin ++ pp ++ hostPathEnd ++ ip) m.registry = Option.none) :
    ∃ m2 d, createEmbeddedAsset m t da pp ip = Option.some (m2, d) ∧
      d.metadata.path = hostPathBegin ++ pp ++ hostPathEnd ++ ip ∧
      d.metadata.handle = m.nextUUID ∧
      d.metadata.handle ≠ md.handle ∧
      d.runtimeData.parent = md.handle ∧
      m2.registry = m.registry := by
  obtain ⟨g1, g2, g3, g4⟩ :=
    createEmptyAsset_not_found m (hostPathBegin ++ pp ++ hostPathEnd ++ ip) t md.handle hnew
  obtain ⟨q1, q2, q3⟩ :=
    createEmptyAsset_parent m (hostPathBegin ++ pp ++ hostPathEnd ++ ip) t md.handle
  have hlt : md.handle < m.nextUUID := (hfresh _ (mapFind_eq_some_mem hreg)).trans_le le_rfl
  refine ⟨(createEmptyAsset m (hostPathBegin ++ pp ++ hostPathEnd ++ ip) t md.handle).1,
    copyAssetMetadata (createEmptyAsset m (hostPathBegin ++ pp ++ hostPathEnd ++ ip) t md.handle).2 da,
    ?_, ?_, ?_, ?_, ?_, ?_⟩
  · unfold createEmbeddedAsset
    rw [hreg]
  · show (createEmptyAsset m (hostPathBegin ++ pp ++ hostPathEnd ++ ip) t md.handle).2.metadata.path = _
    unfold createEmptyAsset
    rw [hnew]
  · show (createEmptyAsset m _ t md.handle).2.metadata.handle = m.nextUUID
    exact g2
  · show (createEmptyAsset m _ t md.handle).2.metadata.handle ≠ md.handle
    rw [g2]
    omega
  · show (createEmptyAsset m _ t md.handle).2.runtimeData.parent = md.handle
    exact q1
  · rw [g1]

/-- Witness for C7 at a concrete input: parent path `p` registered with handle
7, counter at 8; the embedded asset receives handle 8, parent 7, and the
registry stays as it was. -/
theorem c7_embedded_metadata_witness :
    (mapFind "p" (regManager "p" 7 AssetType.Model).registry =
        Option.some { handle := 7, path := "p", type := AssetType.Model } ∧
      (∀ e ∈ (regManager "p" 7 AssetType.Model).registry,
        e.2.handle < (regManager "p" 7 AssetType.Model).nextUUID) ∧
      mapFind (hostPathBegin ++ "p" ++ hostPathEnd ++ "sub")
        (regManager "p" 7 AssetType.Model).registry = Option.none) ∧
    (∃ m2 d, createEmbeddedAsset (regManager "p" 7 AssetType.Model) AssetType.Model
        (sampleAsset 0 "" AssetType.None) "p" "sub" = Option.some (m2, d) ∧
      d.metadata.path = hostPathBegin ++ "p" ++ hostPathEnd ++ "sub" ∧
      d.metadata.handle = (regManager "p" 7 AssetType.Model).nextUUID ∧
      d.metadata.handle ≠ 7 ∧
      d.runtimeData.parent = 7 ∧
      m2.registry = (regManager "p" 7 AssetType.Model).registry) :=
  ⟨⟨by decide, by decide, by decide⟩,
   c7_embedded_metadata (regManager "p" 7 AssetType.Model) AssetType.Model
     (sampleAsset 0 "" AssetType.None) "p" "sub"
     { handle := 7, path := "p", type := AssetType.Model }
     (by decide) (by decide) (by decide)⟩

/-! ## Claim C8: the sorted view -/

theorem charListLt_cons (x y : Char) (xs ys : List Char) :
    charListLt (x :: xs) (y :: ys) =
      if x < y then true else if y < x then false else charListLt xs ys := rfl

theorem charListLt_cons_iff (x y : Char) (xs ys : List Char) :
    charListLt (x :: xs) (y :: ys) = true ↔
      (x < y ∨ (x = y ∧ charListLt xs ys = true)) := by
  rw [charListLt_cons]
  by_cases h1 : x < y
  · simp [h1]
  · by_cases h2 : y < x
    · have hne : x ≠ y := fun he => absurd (he ▸ h2) (lt_irrefl x)
      rw [if_neg h1, if_pos h2]
      simp [h1, hne]
    · have hxy : x = y := le_antisymm (not_lt.mp h2) (not_lt.mp h1)
      subst hxy
      rw [if_neg h1, if_neg h2]
      simp [h1]

theorem charListLt_asymm : ∀ {a b : List Char},
    charListLt a b = true → charListLt b a = false
  | [], [] => by simp [charListLt]
  | [], _ :: _ => by simp [charListLt]
  | _ :: _, [] => by simp [charListLt]
  | x :: xs, y :: ys => by
    intro h
    rcases (charListLt_cons_iff x y xs ys).mp h with hlt | ⟨heq, hrec⟩
    · have hne : y ≠ x := fun he => absurd (he ▸ hlt) (lt_irrefl y)
      have h2 : ¬ y < x := fun hyx => absurd (lt_trans hlt hyx) (lt_irrefl x)
      simp only [charListLt, if_neg h2, if_pos hlt]
    · subst heq
      have hrec2 : charListLt ys xs = false := charListLt_asymm hrec
      simp only [charListLt, if_neg (lt_irrefl x), hrec2]

theorem charListLt_connex : ∀ {a b : List Char},
    charListLt a b = false → charListLt b a = false → a = b
  | [], [] => fun _ _ => rfl
  | [], _ :: _ => by simp [charListLt]
  | _ :: _, [] => by simp [charListLt]
  | x :: xs, y :: ys => by
    intro h1 h2
    have hxy : ¬ x < y := fun hlt =>
      by rw [(charListLt_cons_iff x y xs ys).mpr (Or.inl hlt)] at h1; exact Bool.noConfusion h1
    have hyx : ¬ y < x := fun hlt =>
      by rw [(charListLt_cons_iff y x ys xs).mpr (Or.inl hlt)] at h2; exact Bool.noConfusion h2
    have heq : x = y := le_antisymm (not_lt.mp hyx) (not_lt.mp hxy)
    subst heq
    have hr1 : charListLt xs ys = false := by
      cases hc : charListLt xs ys with
      | false => rfl
      | true =>
        rw [(charListLt_cons_iff x x xs ys).mpr (Or.inr ⟨rfl, hc⟩)] at h1
        exact Bool.noConfusion h1
    have hr2 : charListLt ys xs = false := by
      cases hc : charListLt ys xs with
      | false => rfl
      | true =>
        rw [(charListLt_cons_iff x x ys xs).mpr (Or.inr ⟨rfl, hc⟩)] at h2
        exact Bool.noConfusion h2
    rw [charListLt_connex hr1 hr2]

theorem charListLt_trans : ∀ {a b c : List Char},
    charListLt a b = true → charListLt b c = true → charListLt a c = true
  | _, [], _ => by simp [charListLt]
  | _, _, [] => fun _ h2 => by simp [charListLt] at h2
  | [], _ :: _, _ :: _ => by simp [charListLt]
  | x :: xs, y :: ys, z :: zs => by
    intro h1 h2
    rcases (charListLt_cons_iff x y xs ys).mp h1 with hxy | ⟨hxy, hr1⟩ <;>
      rcases (charListLt_cons_iff y z ys zs).mp h2 with hyz | ⟨hyz, hr2⟩
    · exact (charListLt_cons_iff x z xs zs).mpr (Or.inl (lt_trans hxy hyz))
    · exact (charListLt_cons_iff x z xs zs).mpr (Or.inl (hyz ▸ hxy))
    · exact (charListLt_cons_iff x z xs zs).mpr (Or.inl (hxy ▸ hyz))
    · exact (charListLt_cons_iff x z xs zs).mpr
        (Or.inr ⟨hxy.trans hyz, charListLt_trans hr1 hr2⟩)

theorem sortAssetsLT_iff (a b : Nat × Asset) :
    sortAssetsLT a b = true ↔
      ((sortKey a).1 < (sortKey b).1 ∨
        ((sortKey a).1 = (sortKey b).1 ∧
          charListLt (sortKey a).2 (sortKey b).2 = true)) := by
  unfold sortAssetsLT sortKey
  by_cases h1 : a.2.metadata.type.ordinal < b.2.metadata.type.ordinal
  · simp [h1]
  · by_cases h2 : a.2.metadata.type.ordinal = b.2.metadata.type.ordinal
    · simp [h1, h2]
    · simp [h1, h2]

theorem sortAssetsLE_iff (a b : Nat × Asset) :
    sortAssetsLE a b = true ↔
      ((sortKey a).1 < (sortKey b).1 ∨
        ((sortKey a).1 = (sortKey b).1 ∧
          ¬ charListLt (sortKey b).2 (sortKey a).2 = true)) := by
  unfold sortAssetsLE
  rw [Bool.not_eq_true']
  constructor
  · intro h
    rcases Nat.lt_trichotomy (sortKey a).1 (sortKey b).1 with hlt | heq | hgt
    · exact Or.inl hlt
    · refine Or.inr ⟨heq, fun hc => ?_⟩
      rw [(sortAssetsLT_iff b a).mpr (Or.inr ⟨heq.symm, hc⟩)] at h
      exact Bool.noConfusion h
    · rw [(sortAssetsLT_iff b a).mpr (Or.inl hgt)] at h
      exact Bool.noConfusion h
  · intro h
    cases hc : sortAssetsLT b a with
    | false => rfl
    | true =>
      rcases (sortAssetsLT_iff b a).mp hc with hlt | ⟨heq, hr⟩
      · rcases h with h | ⟨heq, _⟩
        · exact absurd (lt_trans hlt h) (lt_irrefl _)
        · exact absurd (heq ▸ hlt) (lt_irrefl _)
      · rcases h with h | ⟨heq2, hn⟩
        · exact absurd (heq ▸ h) (lt_irrefl _)
        · exact absurd hr hn

theorem sortAssetsLT_asymm {a b : Nat × Asset} (h : sortAssetsLT a b = true) :
    sortAssetsLT b a = false := by
  cases hc : sortAssetsLT b a with
  | false => rfl
  | true =>
    exfalso
    rcases (sortAssetsLT_iff a b).mp h with h1 | ⟨h1, h2⟩ <;>
      rcases (sortAssetsLT_iff b a).mp hc with g1 | ⟨g1, g2⟩
    · exact absurd (lt_trans h1 g1) (lt_irrefl _)
    · exact absurd (g1 ▸ h1) (lt_irrefl _)
    · exact absurd (h1 ▸ g1) (lt_irrefl _)
    · rw [charListLt_asymm h2] at g2
      exact Bool.noConfusion g2

theorem charListLt_neg_trans {a b c : List Char} (hba : charListLt b a = false)
    (hcb : charListLt c b = false) : charListLt c a = false := by
  cases hca : charListLt c a with
  | false => rfl
  | true =>
    exfalso
    cases hab : charListLt a b with
    | true =>
      rw [charListLt_trans hca hab] at hcb
      exact Bool.noConfusion hcb
    | false =>
      rw [charListLt_connex hab hba] at hca
      rw [hca] at hcb
      exact Bool.noConfusion hcb

theorem sortAssetsLE_total (a b : Nat × Asset) :
    (sortAssetsLE a b || sortAssetsLE b a) = true := by
  cases hab : sortAssetsLE a b with
  | true => rfl
  | false =>
    have hlt : sortAssetsLT b a = true := by
      unfold sortAssetsLE at hab
      rwa [Bool.not_eq_false'] at hab
    have : sortAssetsLE b a = true := by
      unfold sortAssetsLE
      rw [Bool.not_eq_true']
      exact sortAssetsLT_asymm hlt
    rw [this]
    rfl

theorem sortAssetsLE_trans {a b c : Nat × Asset} (h1 : sortAssetsLE a b = true)
    (h2 : sortAssetsLE b c = true) : sortAssetsLE a c = true := by
  rw [sortAssetsLE_iff] at h1 h2 ⊢
  rcases h1 with h1 | ⟨h1, h1r⟩ <;> rcases h2 with h2 | ⟨h2, h2r⟩
  · exact Or.inl (lt_trans h1 h2)
  · exact Or.inl (h2 ▸ h1)
  · exact Or.inl (h1 ▸ h2)
  · refine Or.inr ⟨h1.trans h2, fun hc => ?_⟩
    have hba : charListLt (sortKey b).2 (sortKey a).2 = false := by
      cases hcc : charListLt (sortKey b).2 (sortKey a).2 with
      | false => rfl
      | true => exact absurd hcc h1r
    have hcb : charListLt (sortKey c).2 (sortKey b).2 = false := by
      cases hcc : charListLt (sortKey c).2 (sortKey b).2 with
      | false => rfl
      | true => exact absurd hcc h2r
    have hfin := charListLt_neg_trans hba hcb
    rw [hc] at hfin
    exact Bool.noConfusion hfin

/-! ### Insertion sort produces a sorted permutation -/

theorem insertLe_perm {α : Type} (le : α → α → Bool) (x : α) (l : List α) :
    (insertLe le x l).Perm (x :: l) := by
  induction l with
  | nil => exact List.Perm.refl _
  | cons y ys ih =>
    unfold insertLe
    by_cases h : le x y = true
    · rw [if_pos h]
    · rw [if_neg h]
      exact (List.Perm.cons y ih).trans (List.Perm.swap x y ys)

theorem sortLe_perm {α : Type} (le : α → α → Bool) (l : List α) :
    (sortLe le l).Perm l := by
  induction l with
  | nil => exact List.Perm.refl _
  | cons x xs ih =>
    unfold sortLe
    exact (insertLe_perm le x (sortLe le xs)).trans (List.Perm.cons x ih)

theorem insertLe_pairwise {α : Type} (le : α → α → Bool)
    (htrans : ∀ a b c, le a b = true → le b c = true → le a c = true)
    (htot : ∀ a b, (le a b || le b a) = true) (x : α) (l : List α)
    (h : l.Pairwise (fun a b => le a b = true)) :
    (insertLe le x l).Pairwise (fun a b => le a b = true) := by
  induction l with
  | nil => simp [insertLe]
  | cons y ys ih =>
    rcases List.pairwise_cons.mp h with ⟨hy, hys⟩
    unfold insertLe
    by_cases hxy : le x y = true
    · rw [if_pos hxy]
      refine List.pairwise_cons.mpr ⟨?_, h⟩
      intro z hz
      rcases List.mem_cons.mp hz with hz | hz
      · exact hz ▸ hxy
      · exact htrans x y z hxy (hy z hz)
    · rw [if_neg hxy]
      refine List.pairwise_cons.mpr ⟨?_, ih hys⟩
      intro z hz
      have hz2 : z ∈ x :: ys := ((insertLe_perm le x ys).mem_iff).mp hz
      rcases List.mem_cons.mp hz2 with hz2 | hz2
      · rw [hz2]
        have htot2 := htot x y
        have hxyf : le x y = false := by
          cases hcc : le x y with
          | false => rfl
          | true => exact absurd hcc hxy
        cases hc : le y x with
        | true => rfl
        | false =>
          rw [hxyf, hc] at htot2
          exact Bool.noConfusion htot2
      · exact hy z hz2

theorem sortLe_pairwise {α : Type} (le : α → α → Bool)
    (htrans : ∀ a b c, le a b = true → le b c = true → le a c = true)
    (htot : ∀ a b, (le a b || le b a) = true) (l : List α) :
    (sortLe le l).Pairwise (fun a b => le a b = true) := by
  induction l with
  | nil => simp [sortLe]
  | cons x xs ih =>
    unfold sortLe
    exact insertLe_pairwise le htrans htot x (sortLe le xs) ih

/-- C8.  Sorted view: after `updateAssetRegistry`, `sortedAssets` is a
permutation of the live store's entries (exactly one pair per entry), ordered
with primary key the AssetType ordinal ascending and secondary key the
ASCII-lower-cased filename ascending; the live store itself is untouched. -/
theorem c8_sorted_view (m : AssetManager) :
    (updateAssetRegistry m).sortedAssets.Perm m.assets ∧
    (updateAssetRegistry m).sortedAssets.Pairwise (fun a b =>
      (sortKey a).1 < (sortKey b).1 ∨
      ((sortKey a).1 = (sortKey b).1 ∧
        ¬ charListLt (sortKey b).2 (sortKey a).2 = true)) ∧
    (updateAssetRegistry m).assets = m.assets := by
  have hs : (updateAssetRegistry m).sortedAssets = sortLe sortAssetsLE m.assets := rfl
  refine ⟨hs ▸ sortLe_perm sortAssetsLE m.assets, ?_, rfl⟩
  rw [hs]
  have hpw := sortLe_pairwise sortAssetsLE (fun a b c => sortAssetsLE_trans)
    sortAssetsLE_total m.assets
  exact hpw.imp (fun hab => (sortAssetsLE_iff _ _).mp hab)

/-! ## Single-step facts about `importAsset` and `dirStep` -/

theorem createEmptyAsset_path (m : AssetManager) (p : String) (t : AssetType)
    (par : Nat) : (createEmptyAsset m p t par).2.metadata.path = p := by
  unfold createEmptyAsset
  cases h : mapFind p m.registry <;> simp [h]

theorem importAsset_registry (m : AssetManager) (p : String) (par : Nat) :
    (importAsset m p par).registry =
      (if (mapFind p m.registry).isSome then m.registry
       else m.registry ++
         [(p, (createEmptyAsset m p (getAssetTypeFromPath p) par).2.metadata)]) := by
  simp only [importAsset]
  obtain ⟨hr, -, -, -⟩ := createEmptyAsset_registry m p (getAssetTypeFromPath p) par
  rw [createEmptyAsset_path, hr]
  by_cases hc : (mapFind p m.registry).isSome
  · simp [hc, hr]
  · simp [hc, hr]

theorem importAsset_assets (m : AssetManager) (p : String) (par : Nat) :
    (importAsset m p par).assets =
      mapStore (createEmptyAsset m p (getAssetTypeFromPath p) par).2.metadata.handle
        (createEmptyAsset m p (getAssetTypeFromPath p) par).2 m.assets := by
  simp only [importAsset]
  obtain ⟨hr, ha, -, -⟩ := createEmptyAsset_registry m p (getAssetTypeFromPath p) par
  rw [createEmptyAsset_path, hr]
  by_cases hc : (mapFind p m.registry).isSome
  · simp [hc, hr, ha]
  · simp [hc, hr, ha]

theorem importAsset_nextUUID (m : AssetManager) (p : String) (par : Nat) :
    (importAsset m p par).nextUUID =
      (match mapFind p m.registry with
       | Option.some _ => m.nextUUID
       | Option.none => m.nextUUID + 1) := by
  simp only [importAsset]
  rw [createEmptyAsset_path]
  cases h : mapFind p m.registry with
  | some md =>
    obtain ⟨h1, -, -⟩ := createEmptyAsset_found m p (getAssetTypeFromPath p) par md h
    rw [h1]
    simp [h]
  | none =>
    obtain ⟨g1, -, -, -⟩ := createEmptyAsset_not_found m p (getAssetTypeFromPath p) par h
    rw [g1]
    simp [h]

theorem importAsset_serializers (m : AssetManager) (p : String) (par : Nat) :
    (importAsset m p par).serializers = m.serializers := by
  simp only [importAsset]
  obtain ⟨hr, -, hs, -⟩ := createEmptyAsset_registry m p (getAssetTypeFromPath p) par
  rw [createEmptyAsset_path, hr]
  by_cases hc : (mapFind p m.registry).isSome
  · simp [hc, hr, hs]
  · simp [hc, hr, hs]

theorem importAsset_registry_mono (m : AssetManager) (p : String) (par : Nat)
    {q : String} {v : AssetMetadata} (h : mapFind q m.registry = Option.some v) :
    mapFind q (importAsset m p par).registry = Option.some v := by
  rw [importAsset_registry]
  by_cases hc : (mapFind p m.registry).isSome
  · rw [if_pos hc]; exact h
  · rw [if_neg hc, mapFind_append, h]

theorem importAsset_registers (m : AssetManager) (p : String) (par : Nat) :
    ∃ md, mapFind p (importAsset m p par).registry = Option.some md ∧
      md.handle = (createEmptyAsset m p (getAssetTypeFromPath p) par).2.metadata.handle := by
  rw [importAsset_registry]
  cases h : mapFind p m.registry with
  | some md =>
    obtain ⟨-, h2, -⟩ := createEmptyAsset_found m p (getAssetTypeFromPath p) par md h
    refine ⟨md, ?_, h2.symm⟩
    simp [h]
  | none =>
    refine ⟨(createEmptyAsset m p (getAssetTypeFromPath p) par).2.metadata, ?_, rfl⟩
    simp only [h, Option.isSome_none, Bool.false_eq_true, if_false]
    rw [mapFind_append, h]
    simp [mapFind]

theorem importAsset_nextUUID_mono (m : AssetManager) (p : String) (par : Nat) :
    m.nextUUID ≤ (importAsset m p par).nextUUID := by
  rw [importAsset_nextUUID]
  cases mapFind p m.registry <;> simp

theorem handle_ne_of_protected (m : AssetManager) (p : String) (hWF : WFreg m)
    {q : String} {mq : AssetMetadata} (hq : mapFind q m.registry = Option.some mq)
    (hne : q ≠ p) :
    mq.handle ≠
      (match mapFind p m.registry with
       | Option.some md => md.handle
       | Option.none => m.nextUUID) := by
  obtain ⟨-, hbnd, hinj⟩ := hWF
  cases h : mapFind p m.registry with
  | some md =>
    intro heq
    exact hne (hinj (q, mq) (mapFind_eq_some_mem hq) (p, md) (mapFind_eq_some_mem h) heq)
  | none =>
    have hb : mq.handle < m.nextUUID := (hbnd (q, mq) (mapFind_eq_some_mem hq)).1
    show mq.handle ≠ m.nextUUID
    omega

theorem importAsset_WF (m : AssetManager) (p : String) (par : Nat) (h : WFreg m) :
    WFreg (importAsset m p par) := by
  obtain ⟨hpos, hbnd, hinj⟩ := h
  cases hc : mapFind p m.registry with
  | some md =>
    have hr : (importAsset m p par).registry = m.registry := by
      rw [importAsset_registry, hc]
      rfl
    have hn : (importAsset m p par).nextUUID = m.nextUUID := by
      rw [importAsset_nextUUID, hc]
    unfold WFreg
    rw [hr, hn]
    exact ⟨hpos, hbnd, hinj⟩
  | none =>
    obtain ⟨-, g2, -, -⟩ := createEmptyAsset_not_found m p (getAssetTypeFromPath p) par hc
    have hr : (importAsset m p par).registry =
        m.registry ++ [(p, (createEmptyAsset m p (getAssetTypeFromPath p) par).2.metadata)] := by
      rw [importAsset_registry, hc]
      rfl
    have hn : (importAsset m p par).nextUUID = m.nextUUID + 1 := by
      rw [importAsset_nextUUID, hc]
    unfold WFreg
    rw [hr, hn]
    refine ⟨by omega, ?_, ?_⟩
    · intro e he
      rcases List.mem_append.mp he with he | he
      · have := hbnd e he
        omega
      · have he2 : e.2 = (createEmptyAsset m p (getAssetTypeFromPath p) par).2.metadata := by
          rw [List.mem_singleton.mp he]
        rw [he2, g2]
        omega
    · intro e1 h1 e2 h2 heq
      rcases List.mem_append.mp h1 with h1 | h1 <;>
        rcases List.mem_append.mp h2 with h2 | h2
      · exact hinj e1 h1 e2 h2 heq
      · exfalso
        have he2 : e2.2 = (createEmptyAsset m p (getAssetTypeFromPath p) par).2.metadata := by
          rw [List.mem_singleton.mp h2]
        rw [he2, g2] at heq
        have := (hbnd e1 h1).1
        omega
      · exfalso
        have he1 : e1.2 = (createEmptyAsset m p (getAssetTypeFromPath p) par).2.metadata := by
          rw [List.mem_singleton.mp h1]
        rw [he1, g2] at heq
        have := (hbnd e2 h2).1
        omega
      · rw [List.mem_singleton.mp h1, List.mem_singleton.mp h2]

theorem importAsset_frame (m : AssetManager) (p : String) (par : Nat) (hWF : WFreg m)
    {q : String} {mq : AssetMetadata} (hq : mapFind q m.registry = Option.some mq)
    (hne : q ≠ p) :
    mapFind mq.handle (importAsset m p par).assets = mapFind mq.handle m.assets := by
  rw [importAsset_assets]
  apply mapFind_mapStore_ne
  rw [createEmptyAsset_handle]
  exact handle_ne_of_protected m p hWF hq hne

theorem dirStep_handle (m : AssetManager) (path : String) (par : Nat) :
    (dirStep m path par).2 =
      (match mapFind path m.registry with
       | Option.some md => md.handle
       | Option.none => m.nextUUID) := by
  have h0 : (dirStep m path par).2 = (dirAsset m path par).metadata.handle := rfl
  have h1 : (dirAsset m path par).metadata.handle =
      (createEmptyAsset m path AssetType.Directory par).2.metadata.handle := rfl
  rw [h0, h1, createEmptyAsset_handle]

theorem dirAsset_path (m : AssetManager) (path : String) (par : Nat) :
    (dirAsset m path par).metadata.path = path := by
  have h1 : (dirAsset m path par).metadata.path =
      (createEmptyAsset m path AssetType.Directory par).2.metadata.path := rfl
  rw [h1, createEmptyAsset_path]

theorem dirAsset_runtime (m : AssetManager) (path : String) (par : Nat) :
    (dirAsset m path par).runtimeData.parent = par ∧
    (dirAsset m path par).runtimeData.loaded = true ∧
    (dirAsset m path par).children = [] := by
  obtain ⟨q1, -, q3⟩ := createEmptyAsset_parent m path AssetType.Directory par
  unfold dirAsset
  exact ⟨q1, rfl, q3⟩

theorem dirStep_registry (m : AssetManager) (path : String) (par : Nat) :
    (dirStep m path par).1.registry =
      (if (mapFind path m.registry).isSome then m.registry
       else m.registry ++ [(path, (dirAsset m path par).metadata)]) := by
  simp only [dirStep]
  obtain ⟨hr, -, -, -⟩ := createEmptyAsset_registry m path AssetType.Directory par
  rw [dirAsset_path, hr]
  by_cases hc : (mapFind path m.registry).isSome <;>
    by_cases hp : par ≠ 0 <;>
      simp [hc, hp, hr]

theorem dirStep_assets (m : AssetManager) (path : String) (par : Nat) :
    (dirStep m path par).1.assets =
      (if par ≠ 0 then
         mapModify par
           (fun a => { a with children := a.children ++ [(dirStep m path par).2] })
           (mapStore (dirStep m path par).2 (dirAsset m path par) m.assets)
       else mapStore (dirStep m path par).2 (dirAsset m path par) m.assets) := by
  simp only [dirStep]
  obtain ⟨hr, ha, -, -⟩ := createEmptyAsset_registry m path AssetType.Directory par
  rw [dirAsset_path, hr]
  have hh : (dirStep m path par).2 = (dirAsset m path par).metadata.handle := rfl
  by_cases hc : (mapFind path m.registry).isSome <;>
    by_cases hp : par ≠ 0 <;>
      simp [hc, hp, ha, hh]

theorem dirStep_nextUUID (m : AssetManager) (path : String) (par : Nat) :
    (dirStep m path par).1.nextUUID =
      (match mapFind path m.registry with
       | Option.some _ => m.nextUUID
       | Option.none => m.nextUUID + 1) := by
  simp only [dirStep]
  rw [dirAsset_path]
  cases h : mapFind path m.registry with
  | some md =>
    obtain ⟨h1, -, -⟩ := createEmptyAsset_found m path AssetType.Directory par md h
    rw [h1]
    by_cases hp : par ≠ 0 <;> simp [h, hp]
  | none =>
    obtain ⟨g1, -, -, -⟩ := createEmptyAsset_not_found m path AssetType.Directory par h
    rw [g1]
    by_cases hp : par ≠ 0 <;> simp [h, hp]

theorem dirStep_serializers (m : AssetManager) (path : String) (par : Nat) :
    (dirStep m path par).1.serializers = m.serializers := by
  simp only [dirStep]
  obtain ⟨hr, -, hs, -⟩ := createEmptyAsset_registry m path AssetType.Directory par
  rw [dirAsset_path, hr]
  by_cases hc : (mapFind path m.registry).isSome <;>
    by_cases hp : par ≠ 0 <;>
      simp [hc, hp, hs]

theorem dirStep_registry_mono (m : AssetManager) (path : String) (par : Nat)
    {q : String} {v : AssetMetadata} (h : mapFind q m.registry = Option.some v) :
    mapFind q (dirStep m path par).1.registry = Option.some v := by
  rw [dirStep_registry]
  by_cases hc : (mapFind path m.registry).isSome
  · rw [if_pos hc]; exact h
  · rw [if_neg hc, mapFind_append, h]

theorem dirStep_registers (m : AssetManager) (path : String) (par : Nat) :
    ∃ md, mapFind path (dirStep m path par).1.registry = Option.some md ∧
      md.handle = (dirStep m path par).2 := by
  rw [dirStep_registry, dirStep_handle]
  cases h : mapFind path m.registry with
  | some md =>
    refine ⟨md, ?_, rfl⟩
    simp [h]
  | none =>
    refine ⟨(dirAsset m path par).metadata, ?_, ?_⟩
    · simp only [h, Option.isSome_none, Bool.false_eq_true, if_false]
      rw [mapFind_append, h]
      simp [mapFind]
    · have h1 : (dirAsset m path par).metadata.handle =
          (createEmptyAsset m path AssetType.Directory par).2.metadata.handle := rfl
      rw [h1, createEmptyAsset_handle, h]

theorem dirStep_nextUUID_mono (m : AssetManager) (path : String) (par : Nat) :
    m.nextUUID ≤ (dirStep m path par).1.nextUUID := by
  rw [dirStep_nextUUID]
  cases mapFind path m.registry <;> simp

theorem dirStep_WF (m : AssetManager) (path : String) (par : Nat) (h : WFreg m) :
    WFreg (dirStep m path par).1 := by
  obtain ⟨hpos, hbnd, hinj⟩ := h
  cases hc : mapFind path m.registry with
  | some md =>
    have hr : (dirStep m path par).1.registry = m.registry := by
      rw [dirStep_registry, hc]
      rfl
    have hn : (dirStep m path par).1.nextUUID = m.nextUUID := by
      rw [dirStep_nextUUID, hc]
    unfold WFreg
    rw [hr, hn]
    exact ⟨hpos, hbnd, hinj⟩
  | none =>
    have g2 : (dirAsset m path par).metadata.handle = m.nextUUID := by
      have h1 : (dirAsset m path par).metadata.handle =
          (createEmptyAsset m path AssetType.Directory par).2.metadata.handle := rfl
      rw [h1, createEmptyAsset_handle, hc]
    have hr : (dirStep m path par).1.registry =
        m.registry ++ [(path, (dirAsset m path par).metadata)] := by
      rw [dirStep_registry, hc]
      rfl
    have hn : (dirStep m path par).1.nextUUID = m.nextUUID + 1 := by
      rw [dirStep_nextUUID, hc]
    unfold WFreg
    rw [hr, hn]
    refine ⟨by omega, ?_, ?_⟩
    · intro e he
      rcases List.mem_append.mp he with he | he
      · have := hbnd e he
        omega
      · have he2 : e.2 = (dirAsset m path par).metadata := by
          rw [List.mem_singleton.mp he]
        rw [he2, g2]
        omega
    · intro e1 h1 e2 h2 heq
      rcases List.mem_append.mp h1 with h1 | h1 <;>
        rcases List.mem_append.mp h2 with h2 | h2
      · exact hinj e1 h1 e2 h2 heq
      · exfalso
        have he2 : e2.2 = (dirAsset m path par).metadata := by
          rw [List.mem_singleton.mp h2]
        rw [he2, g2] at heq
        have := (hbnd e1 h1).1
        omega
      · exfalso
        have he1 : e1.2 = (dirAsset m path par).metadata := by
          rw [List.mem_singleton.mp h1]
        rw [he1, g2] at heq
        have := (hbnd e2 h2).1
        omega
      · rw [List.mem_singleton.mp h1, List.mem_singleton.mp h2]

theorem dirStep_frame (m : AssetManager) (path : String) (par : Nat) (hWF : WFreg m)
    {q : String} {mq : AssetMetadata} (hq : mapFind q m.registry = Option.some mq)
    (hne : q ≠ path) (hnepar : mq.handle ≠ par) :
    mapFind mq.handle (dirStep m path par).1.assets = mapFind mq.handle m.assets := by
  rw [dirStep_assets]
  have hneh : mq.handle ≠ (dirStep m path par).2 := by
    rw [dirStep_handle]
    exact handle_ne_of_protected m path hWF hq hne
  by_cases hp : par ≠ 0
  · rw [if_pos hp, mapFind_mapModify_ne _ _ hnepar]
    exact mapFind_mapStore_ne _ _ hneh
  · rw [if_neg hp]
    exact mapFind_mapStore_ne _ _ hneh

theorem dirStep_parent_effect (m : AssetManager) (path : String) (par : Nat)
    (hWF : WFreg m) (hp : par ≠ 0)
    {q : String} {mq : AssetMetadata} (hq : mapFind q m.registry = Option.some mq)
    (hpar : mq.handle = par) (hne : q ≠ path) :
    mapFind par (dirStep m path par).1.assets =
      (mapFind par m.assets).map
        (fun a => { a with children := a.children ++ [(dirStep m path par).2] }) := by
  rw [dirStep_assets, if_pos hp, mapFind_mapModify_self]
  have hneh : par ≠ (dirStep m path par).2 := by
    rw [dirStep_handle, ← hpar]
    exact handle_ne_of_protected m path hWF hq hne
  rw [mapFind_mapStore_ne _ _ hneh]

theorem dirStep_self (m : AssetManager) (path : String) (par : Nat)
    (hsafe : par = 0 ∨ (dirStep m path par).2 ≠ par) :
    mapFind (dirStep m path par).2 (dirStep m path par).1.assets =
      Option.some (dirAsset m path par) := by
  rw [dirStep_assets]
  rcases hsafe with hz | hne
  · subst hz
    rw [if_neg (fun hh => hh rfl)]
    exact mapFind_mapStore_self _ _ m.assets
  · by_cases hp : par ≠ 0
    · rw [if_pos hp, mapFind_mapModify_ne _ _ hne]
      exact mapFind_mapStore_self _ _ m.assets
    · rw [if_neg hp]
      exact mapFind_mapStore_self _ _ m.assets

/-! ## Structure of the scanned path set -/

theorem childPath_data (dp nm : String) :
    (childPath dp nm).data = dp.data ++ '/' :: nm.data := by
  unfold childPath
  rw [String.data_append, String.data_append,
    show ("/" : String).data = ['/'] from rfl, List.append_assoc]
  rfl

theorem entryNames_cons (e : FSEntry) (rest : List FSEntry) :
    entryNames (e :: rest) = entryName e :: entryNames rest := by
  cases e <;> rfl

theorem dirNames_cons (e : FSEntry) (rest : List FSEntry) :
    dirNames (e :: rest) = entryDirNames e ++ dirNames rest := by
  cases e <;> rfl

theorem entriesPaths_cons (dp : String) (e : FSEntry) (rest : List FSEntry) :
    entriesPaths dp (e :: rest) = entryPaths dp e ++ entriesPaths dp rest := by
  cases e <;> rfl

theorem entriesValid_cons {e : FSEntry} {rest : List FSEntry}
    (h : entriesValid (e :: rest) = true) :
    entryValid e = true ∧ entriesValid rest = true := by
  rw [show entriesValid (e :: rest) = (entryValid e && entriesValid rest) from rfl,
    Bool.and_eq_true] at h
  exact h

theorem entryNames_valid {es : List FSEntry} (h : entriesValid es = true) :
    ∀ nm ∈ entryNames es, validName nm = true := by
  induction es with
  | nil => intro nm hnm; exact absurd hnm (List.not_mem_nil nm)
  | cons e rest ih =>
    obtain ⟨he, hrest⟩ := entriesValid_cons h
    intro nm hnm
    rw [entryNames_cons] at hnm
    rcases List.mem_cons.mp hnm with hnm | hnm
    · subst hnm
      cases e with
      | file n => exact he
      | dir n sub =>
        rw [show entryValid (FSEntry.dir n sub) = (validName n && entriesValid sub) from rfl,
          Bool.and_eq_true] at he
        exact he.1
    · exact ih hrest nm hnm

theorem sizeOf_head_lt (e : FSEntry) (rest : List FSEntry) :
    sizeOf e < sizeOf (e :: rest) := by
  simp
  omega

theorem sizeOf_tail_lt (e : FSEntry) (rest : List FSEntry) :
    sizeOf rest < sizeOf (e :: rest) := by
  cases e <;> (simp; try omega)

theorem sizeOf_sub_lt (name : String) (sub : List FSEntry) :
    sizeOf sub < sizeOf (FSEntry.dir name sub) := by
  simp
  try omega

theorem paths_extend : ∀ n : Nat,
    (∀ e : FSEntry, sizeOf e ≤ n → ∀ dp q, q ∈ entryPaths dp e →
      ∃ s, q.data = dp.data ++ '/' :: s) ∧
    (∀ es : List FSEntry, sizeOf es ≤ n → ∀ dp q, q ∈ entriesPaths dp es →
      ∃ s, q.data = dp.data ++ '/' :: s) := by
  intro n
  induction n using Nat.strong_induction_on with
  | _ n IH =>
    constructor
    · intro e he dp q hq
      cases e with
      | file name =>
        rw [show entryPaths dp (FSEntry.file name) = [childPath dp name] from rfl] at hq
        rw [List.mem_singleton.mp hq]
        exact ⟨name.data, childPath_data dp name⟩
      | dir name sub =>
        rw [show entryPaths dp (FSEntry.dir name sub) =
          childPath dp name :: entriesPaths (childPath dp name) sub from rfl] at hq
        rcases List.mem_cons.mp hq with hq | hq
        · rw [hq]
          exact ⟨name.data, childPath_data dp name⟩
        · have hsz : sizeOf sub < n :=
            lt_of_lt_of_le (sizeOf_sub_lt name sub) he
          obtain ⟨s, hs⟩ := (IH (sizeOf sub) hsz).2 sub le_rfl (childPath dp name) q hq
          refine ⟨name.data ++ '/' :: s, ?_⟩
          rw [hs, childPath_data]
          simp
    · intro es he dp q hq
      cases es with
      | nil => exact absurd hq (List.not_mem_nil q)
      | cons e rest =>
        rw [entriesPaths_cons] at hq
        rcases List.mem_append.mp hq with hq | hq
        · have hsz : sizeOf e < n := lt_of_lt_of_le (sizeOf_head_lt e rest) he
          exact (IH (sizeOf e) hsz).1 e le_rfl dp q hq
        · have hsz : sizeOf rest < n := lt_of_lt_of_le (sizeOf_tail_lt e rest) he
          exact (IH (sizeOf rest) hsz).2 rest le_rfl dp q hq

theorem base_not_mem_entriesPaths (dp : String) (es : List FSEntry) :
    dp ∉ entriesPaths dp es := by
  intro hmem
  obtain ⟨s, hs⟩ := (paths_extend (sizeOf es)).2 es le_rfl dp dp hmem
  have := congrArg List.length hs
  simp [List.length_append] at this

theorem paths_struct : ∀ n : Nat,
    (∀ e : FSEntry, sizeOf e ≤ n → entryValid e = true → ∀ dp q, q ∈ entryPaths dp e →
      q = childPath dp (entryName e) ∨
      (∃ s, q.data = dp.data ++ '/' :: s ∧ '/' ∈ s)) ∧
    (∀ es : List FSEntry, sizeOf es ≤ n → entriesValid es = true →
      ∀ dp q, q ∈ entriesPaths dp es →
      (∃ nm ∈ entryNames es, q = childPath dp nm) ∨
      (∃ s, q.data = dp.data ++ '/' :: s ∧ '/' ∈ s)) := by
  intro n
  induction n using Nat.strong_induction_on with
  | _ n IH =>
    constructor
    · intro e he hval dp q hq
      cases e with
      | file name =>
        rw [show entryPaths dp (FSEntry.file name) = [childPath dp name] from rfl] at hq
        exact Or.inl (List.mem_singleton.mp hq)
      | dir name sub =>
        rw [show entryPaths dp (FSEntry.dir name sub) =
          childPath dp name :: entriesPaths (childPath dp name) sub from rfl] at hq
        rcases List.mem_cons.mp hq with hq | hq
        · exact Or.inl hq
        · right
          rw [show entryValid (FSEntry.dir name sub) =
            (validName name && entriesValid sub) from rfl, Bool.and_eq_true] at hval
          have hsz : sizeOf sub < n := lt_of_lt_of_le (sizeOf_sub_lt name sub) he
          rcases (IH (sizeOf sub) hsz).2 sub le_rfl hval.2 (childPath dp name) q hq with
            ⟨nm, -, hnm⟩ | ⟨s, hs, hmem⟩
          · refine ⟨name.data ++ '/' :: nm.data, ?_, ?_⟩
            · rw [hnm, childPath_data, childPath_data]
              simp
            · simp
          · refine ⟨name.data ++ '/' :: s, ?_, ?_⟩
            · rw [hs, childPath_data]
              simp
            · simp
    · intro es he hval dp q hq
      cases es with
      | nil => exact absurd hq (List.not_mem_nil q)
      | cons e rest =>
        obtain ⟨hve, hvr⟩ := entriesValid_cons hval
        rw [entriesPaths_cons] at hq
        rcases List.mem_append.mp hq with hq | hq
        · have hsz : sizeOf e < n := lt_of_lt_of_le (sizeOf_head_lt e rest) he
          rcases (IH (sizeOf e) hsz).1 e le_rfl hve dp q hq with hl | hr
          · refine Or.inl ⟨entryName e, ?_, hl⟩
            rw [entryNames_cons]
            exact List.mem_cons_self _ _
          · exact Or.inr hr
        · have hsz : sizeOf rest < n := lt_of_lt_of_le (sizeOf_tail_lt e rest) he
          rcases (IH (sizeOf rest) hsz).2 rest le_rfl hvr dp q hq with ⟨nm, hnm, hq2⟩ | hr
          · refine Or.inl ⟨nm, ?_, hq2⟩
            rw [entryNames_cons]
            exact List.mem_cons_of_mem _ hnm
          · exact Or.inr hr

/-! ## Mono and registration facts for the scan -/

theorem scan_basic : ∀ n : Nat,
    (∀ e : FSEntry, sizeOf e ≤ n → ∀ m dp dh,
      (∀ q v, mapFind q m.registry = Option.some v →
        mapFind q (scanEntry m dp dh e).registry = Option.some v) ∧
      m.nextUUID ≤ (scanEntry m dp dh e).nextUUID ∧
      (∀ q ∈ entryPaths dp e, (mapFind q (scanEntry m dp dh e).registry).isSome)) ∧
    (∀ es : List FSEntry, sizeOf es ≤ n → ∀ m dp dh,
      (∀ q v, mapFind q m.registry = Option.some v →
        mapFind q (scanEntries m dp dh es).registry = Option.some v) ∧
      m.nextUUID ≤ (scanEntries m dp dh es).nextUUID ∧
      (∀ q ∈ entriesPaths dp es, (mapFind q (scanEntries m dp dh es).registry).isSome)) := by
  intro n
  induction n using Nat.strong_induction_on with
  | _ n IH =>
    constructor
    · intro e he m dp dh
      cases e with
      | file name =>
        rw [show scanEntry m dp dh (FSEntry.file name) =
          importAsset m (childPath dp name) dh from rfl]
        refine ⟨fun q v hq => importAsset_registry_mono m _ dh hq,
          importAsset_nextUUID_mono m _ dh, ?_⟩
        intro q hq
        rw [show entryPaths dp (FSEntry.file name) = [childPath dp name] from rfl] at hq
        rw [List.mem_singleton.mp hq]
        obtain ⟨md, hmd, -⟩ := importAsset_registers m (childPath dp name) dh
        rw [hmd]
        rfl
      | dir name sub =>
        rw [show scanEntry m dp dh (FSEntry.dir name sub) =
          scanEntries (dirStep m (childPath dp name) dh).1 (childPath dp name)
            (dirStep m (childPath dp name) dh).2 sub from rfl]
        have hsz : sizeOf sub < n := lt_of_lt_of_le (sizeOf_sub_lt name sub) he
        obtain ⟨ihm, ihn, ihr⟩ := (IH (sizeOf sub) hsz).2 sub le_rfl
          (dirStep m (childPath dp name) dh).1 (childPath dp name)
          (dirStep m (childPath dp name) dh).2
        refine ⟨?_, ?_, ?_⟩
        · intro q v hq
          exact ihm q v (dirStep_registry_mono m _ dh hq)
        · exact le_trans (dirStep_nextUUID_mono m _ dh) ihn
        · intro q hq
          rw [show entryPaths dp (FSEntry.dir name sub) =
            childPath dp name :: entriesPaths (childPath dp name) sub from rfl] at hq
          rcases List.mem_cons.mp hq with hq | hq
          · subst hq
            obtain ⟨md, hmd, -⟩ := dirStep_registers m (childPath dp name) dh
            rw [ihm _ md hmd]
            rfl
          · exact ihr q hq
    · intro es he m dp dh
      cases es with
      | nil =>
        rw [show scanEntries m dp dh [] = m from rfl]
        exact ⟨fun q v hq => hq, le_rfl,
          fun q hq => absurd hq (List.not_mem_nil q)⟩
      | cons e rest =>
        rw [show scanEntries m dp dh (e :: rest) =
          scanEntries (scanEntry m dp dh e) dp dh rest from rfl]
        have hsze : sizeOf e < n := lt_of_lt_of_le (sizeOf_head_lt e rest) he
        have hszr : sizeOf rest < n := lt_of_lt_of_le (sizeOf_tail_lt e rest) he
        obtain ⟨em, en, er⟩ := (IH (sizeOf e) hsze).1 e le_rfl m dp dh
        obtain ⟨rm, rn, rr⟩ := (IH (sizeOf rest) hszr).2 rest le_rfl
          (scanEntry m dp dh e) dp dh
        refine ⟨fun q v hq => rm q v (em q v hq), le_trans en rn, ?_⟩
        intro q hq
        rw [entriesPaths_cons] at hq
        rcases List.mem_append.mp hq with hq | hq
        · obtain ⟨v, hv⟩ := Option.isSome_iff_exists.mp (er q hq)
          rw [rm q v hv]
          rfl
        · exact rr q hq

theorem scanEntries_registry_mono (m : AssetManager) (dp : String) (dh : Nat)
    (es : List FSEntry) {q : String} {v : AssetMetadata}
    (h : mapFind q m.registry = Option.some v) :
    mapFind q (scanEntries m dp dh es).registry = Option.some v :=
  ((scan_basic (sizeOf es)).2 es le_rfl m dp dh).1 q v h

theorem scanEntries_nextUUID_mono (m : AssetManager) (dp : String) (dh : Nat)
    (es : List FSEntry) : m.nextUUID ≤ (scanEntries m dp dh es).nextUUID :=
  ((scan_basic (sizeOf es)).2 es le_rfl m dp dh).2.1

theorem scanEntries_registers (m : AssetManager) (dp : String) (dh : Nat)
    (es : List FSEntry) {q : String} (h : q ∈ entriesPaths dp es) :
    (mapFind q (scanEntries m dp dh es).registry).isSome :=
  ((scan_basic (sizeOf es)).2 es le_rfl m dp dh).2.2 q h

/-! ## Claim C1: identity stability -/

theorem updateDirectoryAssets_eq (m : AssetManager) (path : String)
    (es : List FSEntry) (par : Nat) :
    updateDirectoryAssets m path es par =
      (scanEntries (dirStep m path par).1 path (dirStep m path par).2 es,
       (dirStep m path par).2) := rfl

theorem updateDirectoryAssets_root (m : AssetManager) (path : String)
    (es : List FSEntry) (par : Nat) :
    ∃ md, mapFind path (updateDirectoryAssets m path es par).1.registry = Option.some md ∧
      md.handle = (updateDirectoryAssets m path es par).2 := by
  rw [updateDirectoryAssets_eq]
  obtain ⟨md, hmd, hh⟩ := dirStep_registers m path par
  exact ⟨md, scanEntries_registry_mono _ _ _ _ hmd, hh⟩

/-- C1.  Identity stability: `createEmptyAsset` reuses the handle stored in
the registry for an already-registered path and mints a fresh handle (the
generator's next value) only for paths absent from the registry; and scanning
the same unchanged tree a second time returns the same root handle and leaves
every scanned path mapped to the same registry entry — hence the same handle —
as after the first scan. -/
theorem c1_identity_stability (m : AssetManager) (path : String)
    (entries : List FSEntry) (p : String) (t : AssetType) (par : Nat) :
    ((createEmptyAsset m p t par).2.metadata.handle =
      (match mapFind p m.registry with
       | Option.some md => md.handle
       | Option.none => m.nextUUID)) ∧
    ((updateDirectoryAssets (updateDirectoryAssets m path entries 0).1 path entries 0).2 =
      (updateDirectoryAssets m path entries 0).2) ∧
    (∀ q ∈ scanPaths path entries,
      ∃ md, mapFind q (updateDirectoryAssets m path entries 0).1.registry = Option.some md ∧
        mapFind q (updateDirectoryAssets
          (updateDirectoryAssets m path entries 0).1 path entries 0).1.registry =
          Option.some md) := by
  refine ⟨createEmptyAsset_handle m p t par, ?_, ?_⟩
  · obtain ⟨md, hmd, hh⟩ := updateDirectoryAssets_root m path entries 0
    show (dirStep (updateDirectoryAssets m path entries 0).1 path 0).2 = _
    rw [dirStep_handle, hmd]
    exact hh
  · intro q hq
    rw [show scanPaths path entries = path :: entriesPaths path entries from rfl] at hq
    rcases List.mem_cons.mp hq with hq | hq
    · subst hq
      obtain ⟨md, hmd, -⟩ := updateDirectoryAssets_root m q entries 0
      refine ⟨md, hmd, ?_⟩
      rw [updateDirectoryAssets_eq (updateDirectoryAssets m q entries 0).1 q entries 0]
      exact scanEntries_registry_mono _ _ _ _ (dirStep_registry_mono _ _ _ hmd)
    · have h1 : (mapFind q (updateDirectoryAssets m path entries 0).1.registry).isSome := by
        rw [updateDirectoryAssets_eq]
        exact scanEntries_registers _ _ _ _ hq
      obtain ⟨md, hmd⟩ := Option.isSome_iff_exists.mp h1
      refine ⟨md, hmd, ?_⟩
      rw [updateDirectoryAssets_eq (updateDirectoryAssets m path entries 0).1 path entries 0]
      exact scanEntries_registry_mono _ _ _ _ (dirStep_registry_mono _ _ _ hmd)

/-- Witness for C1 at a concrete input: scanning a small tree twice from a
fresh manager returns the same root handle both times. -/
theorem c1_identity_stability_witness :
    (updateDirectoryAssets
      (updateDirectoryAssets emptyManager "root"
        [FSEntry.dir "sub" [], FSEntry.file "a.png"] 0).1 "root"
      [FSEntry.dir "sub" [], FSEntry.file "a.png"] 0).2 =
    (updateDirectoryAssets emptyManager "root"
      [FSEntry.dir "sub" [], FSEntry.file "a.png"] 0).2 :=
  (c1_identity_stability emptyManager "root"
    [FSEntry.dir "sub" [], FSEntry.file "a.png"] "p" AssetType.None 0).2.1

/-! ## Claim C4: directory children linking -/

theorem forall2_append {α β : Type} {R : α → β → Prop} {l1 : List α} {m1 : List β}
    {l2 : List α} {m2 : List β} (h1 : List.Forall₂ R l1 m1)
    (h2 : List.Forall₂ R l2 m2) : List.Forall₂ R (l1 ++ l2) (m1 ++ m2) := by
  induction h1 with
  | nil => exact h2
  | cons hr _ ih => exact List.Forall₂.cons hr ih

theorem optmap_children_nil (o : Option Asset) :
    o.map (fun a => { a with children := a.children ++ ([] : List Nat) }) = o := by
  cases o <;> simp

theorem optmap_children_comp (o : Option Asset) (l1 l2 : List Nat) :
    (o.map (fun a => { a with children := a.children ++ l1 })).map
      (fun a => { a with children := a.children ++ l2 }) =
    o.map (fun a => { a with children := a.children ++ (l1 ++ l2) }) := by
  cases o <;> simp

theorem validName_not_mem {s : String} (h : validName s = true) : '/' ∉ s.data := by
  unfold validName at h
  rw [Bool.not_eq_true'] at h
  intro hmem
  have hc : s.data.contains '/' = true := by
    simp only [List.contains_iff_exists_mem_beq]
    exact ⟨'/', hmem, by simp⟩
  rw [h] at hc
  exact Bool.noConfusion hc

theorem childPath_suffix_eq {dp nm : String} {s : List Char}
    (h : (childPath dp nm).data = dp.data ++ '/' :: s) : s = nm.data := by
  rw [childPath_data] at h
  have h2 := List.append_cancel_left h
  injection h2 with h3 h4
  exact h4.symm

theorem scan_master : ∀ n : Nat,
    (∀ e : FSEntry, sizeOf e ≤ n → ∀ m dp dh pd mdd,
      WFreg m → entryValid e = true →
      mapFind pd m.registry = Option.some mdd → mdd.handle = dh →
      pd ∉ entryPaths dp e →
      (WFreg (scanEntry m dp dh e) ∧
       (∃ hs, List.Forall₂ (fun nm hc =>
           ∃ md, mapFind (childPath dp nm) (scanEntry m dp dh e).registry = Option.some md ∧
             md.handle = hc) (entryDirNames e) hs ∧
         mapFind dh (scanEntry m dp dh e).assets =
           (mapFind dh m.assets).map (fun a => { a with children := a.children ++ hs })) ∧
       (∃ md a, mapFind (childPath dp (entryName e)) (scanEntry m dp dh e).registry =
           Option.some md ∧
         mapFind md.handle (scanEntry m dp dh e).assets = Option.some a ∧
         a.runtimeData.parent = dh ∧
         a.metadata.path = childPath dp (entryName e)) ∧
       (∀ q mq, mapFind q m.registry = Option.some mq → q ∉ entryPaths dp e →
         mq.handle ≠ dh →
         mapFind mq.handle (scanEntry m dp dh e).assets = mapFind mq.handle m.assets))) ∧
    (∀ es : List FSEntry, sizeOf es ≤ n → ∀ m dp dh pd mdd,
      WFreg m → entriesValid es = true →
      mapFind pd m.registry = Option.some mdd → mdd.handle = dh →
      pd ∉ entriesPaths dp es →
      (WFreg (scanEntries m dp dh es) ∧
       (∃ hs, List.Forall₂ (fun nm hc =>
           ∃ md, mapFind (childPath dp nm) (scanEntries m dp dh es).registry =
               Option.some md ∧
             md.handle = hc) (dirNames es) hs ∧
         mapFind dh (scanEntries m dp dh es).assets =
           (mapFind dh m.assets).map (fun a => { a with children := a.children ++ hs })) ∧
       (∀ nm ∈ entryNames es, ∃ md a,
         mapFind (childPath dp nm) (scanEntries m dp dh es).registry = Option.some md ∧
         mapFind md.handle (scanEntries m dp dh es).assets = Option.some a ∧
         a.runtimeData.parent = dh ∧
         a.metadata.path = childPath dp nm) ∧
       (∀ q mq, mapFind q m.registry = Option.some mq → q ∉ entriesPaths dp es →
         mq.handle ≠ dh →
         mapFind mq.handle (scanEntries m dp dh es).assets = mapFind mq.handle m.assets))) := by
  intro n
  induction n using Nat.strong_induction_on with
  | _ n IH =>
    constructor
    · -- single entry
      intro e he m dp dh pd mdd hWF hval hpd hdh hprot
      cases e with
      | file name =>
        rw [show scanEntry m dp dh (FSEntry.file name) =
          importAsset m (childPath dp name) dh from rfl]
        rw [show entryPaths dp (FSEntry.file name) = [childPath dp name] from rfl] at hprot
        have hne : pd ≠ childPath dp name := by
          intro he2
          exact hprot (he2 ▸ List.mem_singleton_self pd)
        refine ⟨importAsset_WF m _ dh hWF, ?_, ?_, ?_⟩
        · refine ⟨[], List.Forall₂.nil, ?_⟩
          rw [optmap_children_nil]
          have hfr := importAsset_frame m (childPath dp name) dh hWF hpd hne
          rw [hdh] at hfr
          exact hfr
        · obtain ⟨md, hmd, hh⟩ := importAsset_registers m (childPath dp name) dh
          obtain ⟨hpar, -, -⟩ :=
            createEmptyAsset_parent m (childPath dp name)
              (getAssetTypeFromPath (childPath dp name)) dh
          refine ⟨md, (createEmptyAsset m (childPath dp name)
            (getAssetTypeFromPath (childPath dp name)) dh).2, hmd, ?_, hpar, ?_⟩
          · rw [importAsset_assets, hh]
            exact mapFind_mapStore_self _ _ m.assets
          · exact createEmptyAsset_path m _ _ dh
        · intro q mq hq hqn hqh
          have hne2 : q ≠ childPath dp name := by
            intro he2
            rw [show entryPaths dp (FSEntry.file name) = [childPath dp name] from rfl] at hqn
            exact hqn (he2 ▸ List.mem_singleton_self q)
          exact importAsset_frame m _ dh hWF hq hne2
      | dir name sub =>
        rw [show scanEntry m dp dh (FSEntry.dir name sub) =
          scanEntries (dirStep m (childPath dp name) dh).1 (childPath dp name)
            (dirStep m (childPath dp name) dh).2 sub from rfl]
        rw [show entryPaths dp (FSEntry.dir name sub) =
          childPath dp name :: entriesPaths (childPath dp name) sub from rfl] at hprot
        have hnp : pd ≠ childPath dp name := fun he2 =>
          hprot (he2 ▸ List.mem_cons_self pd _)
        have hnp2 : pd ∉ entriesPaths (childPath dp name) sub := fun hm =>
          hprot (List.mem_cons_of_mem _ hm)
        rw [show entryValid (FSEntry.dir name sub) =
          (validName name && entriesValid sub) from rfl, Bool.and_eq_true] at hval
        have hWF4 : WFreg (dirStep m (childPath dp name) dh).1 :=
          dirStep_WF m _ dh hWF
        obtain ⟨mdc, hmdc, hmdch⟩ := dirStep_registers m (childPath dp name) dh
        have hpd4 : mapFind pd (dirStep m (childPath dp name) dh).1.registry =
            Option.some mdd := dirStep_registry_mono m _ dh hpd
        have hhc_ne : mdd.handle ≠ (dirStep m (childPath dp name) dh).2 := by
          rw [dirStep_handle]
          exact handle_ne_of_protected m _ hWF hpd hnp
        have hdh0 : dh ≠ 0 := by
          obtain ⟨-, hbnd, -⟩ := hWF
          have hpos2 : 0 < mdd.handle := (hbnd (pd, mdd) (mapFind_eq_some_mem hpd)).2
          rw [hdh] at hpos2
          omega
        have hsz : sizeOf sub < n := lt_of_lt_of_le (sizeOf_sub_lt name sub) he
        obtain ⟨Ws, ⟨hs_sub, Fs, effs⟩, names_s, frame_s⟩ :=
          (IH (sizeOf sub) hsz).2 sub le_rfl (dirStep m (childPath dp name) dh).1
            (childPath dp name) (dirStep m (childPath dp name) dh).2
            (childPath dp name) mdc hWF4 hval.2 hmdc hmdch
            (base_not_mem_entriesPaths _ sub)
        refine ⟨Ws, ?_, ?_, ?_⟩
        · refine ⟨[(dirStep m (childPath dp name) dh).2], ?_, ?_⟩
          · refine List.Forall₂.cons ⟨mdc, ?_, hmdch⟩ List.Forall₂.nil
            exact scanEntries_registry_mono _ _ _ _ hmdc
          · have heff4 : mapFind dh (dirStep m (childPath dp name) dh).1.assets =
                (mapFind dh m.assets).map
                  (fun a => { a with children :=
                    a.children ++ [(dirStep m (childPath dp name) dh).2] }) :=
              dirStep_parent_effect m _ dh hWF hdh0 hpd hdh hnp
            have hfr := frame_s pd mdd hpd4 hnp2 hhc_ne
            rw [hdh] at hfr
            rw [hfr, heff4]
        · rw [show entryName (FSEntry.dir name sub) = name from rfl]
          have hself : mapFind (dirStep m (childPath dp name) dh).2
              (dirStep m (childPath dp name) dh).1.assets =
              Option.some (dirAsset m (childPath dp name) dh) :=
            dirStep_self m _ dh (Or.inr (Ne.symm (hdh ▸ hhc_ne)))
          refine ⟨mdc,
            { dirAsset m (childPath dp name) dh with
              children := (dirAsset m (childPath dp name) dh).children ++ hs_sub },
            ?_, ?_, ?_, ?_⟩
          · exact scanEntries_registry_mono _ _ _ _ hmdc
          · rw [hmdch, effs, hself]
            rfl
          · show (dirAsset m (childPath dp name) dh).runtimeData.parent = dh
            exact (dirAsset_runtime m _ dh).1
          · show (dirAsset m (childPath dp name) dh).metadata.path = childPath dp name
            exact dirAsset_path m _ dh
        · intro q mq hq hqn hqh
          have hq_ne : q ≠ childPath dp name := fun he2 =>
            hqn (he2 ▸ List.mem_cons_self q _)
          have hqn2 : q ∉ entriesPaths (childPath dp name) sub := fun hm =>
            hqn (List.mem_cons_of_mem _ hm)
          have hq4 : mapFind q (dirStep m (childPath dp name) dh).1.registry =
              Option.some mq := dirStep_registry_mono m _ dh hq
          have hqh2 : mq.handle ≠ (dirStep m (childPath dp name) dh).2 := by
            rw [dirStep_handle]
            exact handle_ne_of_protected m _ hWF hq hq_ne
          rw [frame_s q mq hq4 hqn2 hqh2]
          exact dirStep_frame m _ dh hWF hq hq_ne hqh
    · -- entry list
      intro es he m dp dh pd mdd hWF hval hpd hdh hprot
      cases es with
      | nil =>
        rw [show scanEntries m dp dh [] = m from rfl]
        refine ⟨hWF, ⟨[], List.Forall₂.nil, (optmap_children_nil _).symm⟩, ?_, ?_⟩
        · intro nm hnm
          exact absurd hnm (List.not_mem_nil nm)
        · intro q mq hq hqn hqh
          rfl
      | cons e rest =>
        rw [show scanEntries m dp dh (e :: rest) =
          scanEntries (scanEntry m dp dh e) dp dh rest from rfl]
        obtain ⟨hve, hvr⟩ := entriesValid_cons hval
        rw [entriesPaths_cons] at hprot
        have hprot_e : pd ∉ entryPaths dp e := fun hm =>
          hprot (List.mem_append.mpr (Or.inl hm))
        have hprot_r : pd ∉ entriesPaths dp rest := fun hm =>
          hprot (List.mem_append.mpr (Or.inr hm))
        have hsze : sizeOf e < n := lt_of_lt_of_le (sizeOf_head_lt e rest) he
        have hszr : sizeOf rest < n := lt_of_lt_of_le (sizeOf_tail_lt e rest) he
        obtain ⟨We, ⟨hse, Fe, effe⟩, ⟨mde, ae, hmde, hae, hae_par, hae_path⟩, frame_e⟩ :=
          (IH (sizeOf e) hsze).1 e le_rfl m dp dh pd mdd hWF hve hpd hdh hprot_e
        have hpd1 : mapFind pd (scanEntry m dp dh e).registry = Option.some mdd :=
          ((scan_basic (sizeOf e)).1 e le_rfl m dp dh).1 pd mdd hpd
        obtain ⟨Wr, ⟨hsr, Fr, effr⟩, names_r, frame_r⟩ :=
          (IH (sizeOf rest) hszr).2 rest le_rfl (scanEntry m dp dh e) dp dh pd mdd
            We hvr hpd1 hdh hprot_r
        refine ⟨Wr, ?_, ?_, ?_⟩
        · refine ⟨hse ++ hsr, ?_, ?_⟩
          · rw [dirNames_cons]
            refine forall2_append ?_ Fr
            refine Fe.imp ?_
            intro nm hc ⟨md, hmd, hh⟩
            exact ⟨md, scanEntries_registry_mono _ _ _ _ hmd, hh⟩
          · rw [effr, effe, optmap_children_comp]
        · intro nm hnm
          rw [entryNames_cons] at hnm
          rcases List.mem_cons.mp hnm with hnm | hnm
          · subst hnm
            have hmdeR : mapFind (childPath dp (entryName e))
                (scanEntries (scanEntry m dp dh e) dp dh rest).registry =
                Option.some mde := scanEntries_registry_mono _ _ _ _ hmde
            by_cases hmem : childPath dp (entryName e) ∈ entriesPaths dp rest
            · rcases (paths_struct (sizeOf rest)).2 rest le_rfl hvr dp _ hmem with
                ⟨nm2, hnm2, heq2⟩ | ⟨s, hs, hsl⟩
              · obtain ⟨md2, a2, hmd2, ha2, ha2p, ha2path⟩ := names_r nm2 hnm2
                rw [← heq2] at hmd2 ha2path
                have hmd_eq : md2 = mde := by
                  rw [hmdeR] at hmd2
                  exact (Option.some.inj hmd2).symm
                subst hmd_eq
                exact ⟨md2, a2, hmdeR, ha2, ha2p, ha2path⟩
              · exfalso
                have hnv : validName (entryName e) = true := by
                  apply entryNames_valid hval
                  rw [entryNames_cons]
                  exact List.mem_cons_self _ _
                have hse2 := childPath_suffix_eq hs
                exact validName_not_mem hnv (hse2 ▸ hsl)
            · have hmde_ne_dh : mde.handle ≠ dh := by
                have hne3 : pd ≠ childPath dp (entryName e) := by
                  intro he3
                  apply hprot_e
                  rw [he3]
                  cases e with
                  | file nm3 => exact List.mem_singleton_self _
                  | dir nm3 sub3 => exact List.mem_cons_self _ _
                have := handle_ne_of_protected (scanEntry m dp dh e)
                  (childPath dp (entryName e)) We hpd1 hne3
                rw [hmde] at this
                rw [← hdh]
                exact fun hcon => this hcon.symm
              refine ⟨mde, ae, hmdeR, ?_, hae_par, hae_path⟩
              rw [frame_r _ mde hmde hmem hmde_ne_dh]
              exact hae
          · exact names_r nm hnm
        · intro q mq hq hqn hqh
          have hqe : q ∉ entryPaths dp e := fun hm =>
            hqn (List.mem_append.mpr (Or.inl hm))
          have hqr : q ∉ entriesPaths dp rest := fun hm =>
            hqn (List.mem_append.mpr (Or.inr hm))
          have hq1 : mapFind q (scanEntry m dp dh e).registry = Option.some mq :=
            ((scan_basic (sizeOf e)).1 e le_rfl m dp dh).1 q mq hq
          rw [frame_r q mq hq1 hqr hqh]
          exact frame_e q mq hq hqe hqh

/-- C4 counterexample: scanning `root` containing the single file `a.png`
registers the file under handle 2 with its parent field set, but the root
directory's `children` sequence stays empty — file handles are never appended
to `children`, only sub-directory handles are (asset_manager.cpp lines
140-143 run only for directories; `importAsset` never touches the parent's
children).  This refutes "children contains the handles of all of its direct
entries — both sub-directories and files". -/
theorem c4_children_counterexample :
    (mapFind (childPath "root" "a.png")
        (updateDirectoryAssets emptyManager "root" [FSEntry.file "a.png"] 0).1.registry).map
      AssetMetadata.handle = Option.some 2 ∧
    (mapFind (updateDirectoryAssets emptyManager "root" [FSEntry.file "a.png"] 0).2
        (updateDirectoryAssets emptyManager "root" [FSEntry.file "a.png"] 0).1.assets).map
      (fun d => decide ((2 : Nat) ∈ d.children)) = Option.some false := by
  decide

/-- C4 (amended).  After `updateDirectoryAssets` on a directory, the scanned
directory's live asset exists under the returned handle, its `children`
sequence is exactly the handles of its direct sub-directories in filesystem
enumeration order (file entries are never appended to `children`), and every
direct entry — file or sub-directory — is registered and its live asset's
runtime parent field equals the directory's handle.  Hypotheses: the registry
is well formed and the tree's names are slash-free, as real directory entries
are. -/
theorem c4_children_linking (m : AssetManager) (path : String)
    (entries : List FSEntry) (hWF : WFreg m) (hval : entriesValid entries = true) :
    ∃ d, mapFind (updateDirectoryAssets m path entries 0).2
        (updateDirectoryAssets m path entries 0).1.assets = Option.some d ∧
      d.metadata.path = path ∧
      List.Forall₂ (fun nm hc => ∃ md,
          mapFind (childPath path nm) (updateDirectoryAssets m path entries 0).1.registry =
            Option.some md ∧ md.handle = hc)
        (dirNames entries) d.children ∧
      ∀ nm ∈ entryNames entries, ∃ md a,
        mapFind (childPath path nm) (updateDirectoryAssets m path entries 0).1.registry =
          Option.some md ∧
        mapFind md.handle (updateDirectoryAssets m path entries 0).1.assets = Option.some a ∧
        a.runtimeData.parent = (updateDirectoryAssets m path entries 0).2 ∧
        a.metadata.path = childPath path nm := by
  obtain ⟨md0, hmd0, hmd0h⟩ := dirStep_registers m path 0
  have hWF4 := dirStep_WF m path 0 hWF
  obtain ⟨W, ⟨hs, F, eff⟩, names, frame⟩ :=
    (scan_master (sizeOf entries)).2 entries le_rfl (dirStep m path 0).1 path
      (dirStep m path 0).2 path md0 hWF4 hval hmd0 hmd0h
      (base_not_mem_entriesPaths path entries)
  have hself := dirStep_self m path 0 (Or.inl rfl)
  rw [updateDirectoryAssets_eq]
  refine ⟨{ dirAsset m path 0 with
    children := (dirAsset m path 0).children ++ hs }, ?_, ?_, ?_, ?_⟩
  · show mapFind (dirStep m path 0).2
      (scanEntries (dirStep m path 0).1 path (dirStep m path 0).2 entries).assets = _
    rw [eff, hself]
    rfl
  · show (dirAsset m path 0).metadata.path = path
    exact dirAsset_path m path 0
  · show List.Forall₂ _ (dirNames entries) ((dirAsset m path 0).children ++ hs)
    rw [(dirAsset_runtime m path 0).2.2, List.nil_append]
    exact F
  · exact names

/-- Witness for C4 at a concrete input: a fresh manager scanning `root`
containing a sub-directory and a file. -/
theorem c4_children_linking_witness :
    (WFreg emptyManager ∧
      entriesValid [FSEntry.dir "sub" [], FSEntry.file "b.txt"] = true) ∧
    (∃ d, mapFind
        (updateDirectoryAssets emptyManager "root"
          [FSEntry.dir "sub" [], FSEntry.file "b.txt"] 0).2
        (updateDirectoryAssets emptyManager "root"
          [FSEntry.dir "sub" [], FSEntry.file "b.txt"] 0).1.assets = Option.some d ∧
      d.metadata.path = "root" ∧
      List.Forall₂ (fun nm hc => ∃ md,
          mapFind (childPath "root" nm)
            (updateDirectoryAssets emptyManager "root"
              [FSEntry.dir "sub" [], FSEntry.file "b.txt"] 0).1.registry =
            Option.some md ∧ md.handle = hc)
        (dirNames [FSEntry.dir "sub" [], FSEntry.file "b.txt"]) d.children ∧
      ∀ nm ∈ entryNames [FSEntry.dir "sub" [], FSEntry.file "b.txt"], ∃ md a,
        mapFind (childPath "root" nm)
          (updateDirectoryAssets emptyManager "root"
            [FSEntry.dir "sub" [], FSEntry.file "b.txt"] 0).1.registry = Option.some md ∧
        mapFind md.handle
          (updateDirectoryAssets emptyManager "root"
            [FSEntry.dir "sub" [], FSEntry.file "b.txt"] 0).1.assets = Option.some a ∧
        a.runtimeData.parent =
          (updateDirectoryAssets emptyManager "root"
            [FSEntry.dir "sub" [], FSEntry.file "b.txt"] 0).2 ∧
        a.metadata.path = childPath "root" nm) :=
  ⟨⟨by decide, by decide⟩,
   c4_children_linking emptyManager "root" [FSEntry.dir "sub" [], FSEntry.file "b.txt"]
     (by decide) (by decide)⟩

end Xenon
